import Mathlib

/-! RTP header extension map (`rtp_header_extension.cc`)

A shallow embedding of `webrtc::RtpHeaderExtensionMap`.  The class owns one
member, `std::map<uint8_t, HeaderExtension*> extensionMap_`.  The state of that
container is embedded as the list of its (key, value) entries in iteration order
(ascending key); an iterator is embedded as the suffix of the entry list that
starts at the element it points to, so `end()` is the empty suffix, `it++` is the
tail and `it->second` is the second component of the head.

Unsigned 8-bit values (`uint8_t id`, `uint8_t length`) are natural numbers; the
16-bit accumulators of the two layout queries are natural numbers reduced modulo
`2^16` after every addition.  Methods returning a status code together with an
out-parameter (`GetType`, `GetId`) return an `Option`: `none` stands for the
return value `-1` (out-parameter untouched), `some v` for the return value `0`
with `v` written to the out-parameter.
-/

namespace webrtc

/-- Modelled from the spec: the enum `RTPExtensionType` is declared in
`common_types.h`, which is not part of the sources at hand.  The spec describes a
kind as an opaque enumerated value with a reserved sentinel `NoneKind`; the
enumerators are encoded by their ordinal. -/
abbrev RTPExtensionType := Nat

/-- Modelled from the spec: the sentinel enumerator `kRtpExtensionNone`
(`NoneKind`), declared in the missing `common_types.h`. -/
def kRtpExtensionNone : RTPExtensionType := 0

/-- The record `HeaderExtension` stored in the map: the extension kind and the
cached payload length (`uint8_t length`). -/
structure HeaderExtension where
  type : RTPExtensionType
  length : Nat
deriving DecidableEq, Repr

/-- The constructor `HeaderExtension(type)`.  Its body lives in the missing header
`rtp_header_extension.h`; the per-kind length it assigns is the parameter
`lengthOf`. -/
def HeaderExtension.create (lengthOf : RTPExtensionType → Nat)
    (type : RTPExtensionType) : HeaderExtension :=
  { type := type, length := lengthOf type }

/-- State of `std::map<uint8_t, HeaderExtension*> extensionMap_`: the entries in
iteration order. -/
abbrev ExtensionMap := List (Nat × HeaderExtension)

/-- The iterator `extensionMap_.find(id)`: the suffix starting at the entry whose
key is `id`, or the empty suffix (`end()`). -/
def mapFind : ExtensionMap → Nat → ExtensionMap
  | [], _ => []
  | e :: es, id => if e.1 = id then e :: es else mapFind es id

/-- The assignment `extensionMap_[id] = x`: the entry is placed at its position in
ascending key order; an existing entry with the same key has its value replaced. -/
def mapInsert : ExtensionMap → Nat → HeaderExtension → ExtensionMap
  | [], id, x => [(id, x)]
  | e :: es, id, x =>
    if id < e.1 then (id, x) :: e :: es
    else if id = e.1 then (id, x) :: es
    else e :: mapInsert es id x

/-- The call `extensionMap_.erase(it)` for the iterator `it = find(id)`: the entry
the iterator points to is removed. -/
def mapErase : ExtensionMap → Nat → ExtensionMap
  | [], _ => []
  | e :: es, id => if e.1 = id then es else e :: mapErase es id

namespace RtpHeaderExtensionMap

/-- The method `Erase()`: the loop removes `begin()` until the map is empty. -/
def Erase : ExtensionMap → ExtensionMap
  | [] => []
  | _ :: es => Erase es

/-- The method `Register(type, id)`: the status code and the new state. -/
def Register (lengthOf : RTPExtensionType → Nat) (extensionMap_ : ExtensionMap)
    (type : RTPExtensionType) (id : Nat) : Int × ExtensionMap :=
  if id < 1 ∨ id > 14 then (-1, extensionMap_)
  else
    match mapFind extensionMap_ id with
    | _ :: _ => (-1, extensionMap_)
    | [] => (0, mapInsert extensionMap_ id (HeaderExtension.create lengthOf type))

/-- The method `GetId(type, &id)`: the loop from `begin()` returns the key of the
first entry whose kind is `type`. -/
def GetId : ExtensionMap → RTPExtensionType → Option Nat
  | [], _ => none
  | e :: es, type => if e.2.type = type then some e.1 else GetId es type

/-- The method `Deregister(type)`: the status code and the new state. -/
def Deregister (extensionMap_ : ExtensionMap) (type : RTPExtensionType) :
    Int × ExtensionMap :=
  match GetId extensionMap_ type with
  | none => (-1, extensionMap_)
  | some id =>
    match mapFind extensionMap_ id with
    | [] => (-1, extensionMap_)
    | _ :: _ => (0, mapErase extensionMap_ id)

/-- The method `GetType(id, &type)`. -/
def GetType (extensionMap_ : ExtensionMap) (id : Nat) : Option RTPExtensionType :=
  match mapFind extensionMap_ id with
  | [] => none
  | e :: _ => some e.2.type

/-- The first loop of `GetTotalLengthInBytes`: `length += extension->length` on a
`uint16_t` accumulator, for every entry from the iterator to `end()`. -/
def totalLengthLoop : ExtensionMap → Nat → Nat
  | [], length => length
  | e :: es, length => totalLengthLoop es ((length + e.2.length) % 65536)

/-- The method `GetTotalLengthInBytes()`; `oneByteHeaderLength` is the value of the
macro `RTP_ONE_BYTE_HEADER_LENGTH_IN_BYTES`, defined outside the sources at hand. -/
def GetTotalLengthInBytes (oneByteHeaderLength : Nat) (extensionMap_ : ExtensionMap) :
    Nat :=
  let length := totalLengthLoop extensionMap_ 0
  if length > 0 then (length + oneByteHeaderLength) % 65536 else length

/-- The loop of `GetLengthUntilBlockStartInBytes`: lengths are accumulated on a
`uint16_t` until the first entry of kind `type` (`break`) or `end()`. -/
def lengthUntilLoop : ExtensionMap → RTPExtensionType → Nat → Nat
  | [], _, length => length
  | e :: es, type, length =>
    if e.2.type = type then length
    else lengthUntilLoop es type ((length + e.2.length) % 65536)

/-- The method `GetLengthUntilBlockStartInBytes(type)`, an `int32_t`: `-1` when the
kind is not registered, otherwise the `uint16_t` accumulator. -/
def GetLengthUntilBlockStartInBytes (oneByteHeaderLength : Nat)
    (extensionMap_ : ExtensionMap) (type : RTPExtensionType) : Int :=
  match GetId extensionMap_ type with
  | none => -1
  | some _ => (lengthUntilLoop extensionMap_ type (oneByteHeaderLength % 65536) : Nat)

/-- The method `Size()`. -/
def Size (extensionMap_ : ExtensionMap) : Int := extensionMap_.length

/-- The method `First()`. -/
def First : ExtensionMap → RTPExtensionType
  | [] => kRtpExtensionNone
  | e :: _ => e.2.type

/-- The method `Next(type)`. -/
def Next (extensionMap_ : ExtensionMap) (type : RTPExtensionType) : RTPExtensionType :=
  match GetId extensionMap_ type with
  | none => kRtpExtensionNone
  | some id =>
    match mapFind extensionMap_ id with
    | [] => kRtpExtensionNone
    | _ :: it =>
      match it with
      | [] => kRtpExtensionNone
      | e :: _ => e.2.type

/-- The loop of `GetCopy`: every entry from the iterator to `end()` is registered
in the target `map`; the status code of `Register` is discarded. -/
def copyLoop (lengthOf : RTPExtensionType → Nat) : ExtensionMap → ExtensionMap → ExtensionMap
  | [], map => map
  | e :: es, map => copyLoop lengthOf es (Register lengthOf map e.2.type e.1).2

/-- The const method `GetCopy(map)`: the pair of the state of `this` (untouched)
and the new state of the target `map`. -/
def GetCopy (lengthOf : RTPExtensionType → Nat) (extensionMap_ : ExtensionMap)
    (map : ExtensionMap) : ExtensionMap × ExtensionMap :=
  (extensionMap_, copyLoop lengthOf extensionMap_ map)

end RtpHeaderExtensionMap

/-! ## Vocabulary of the specification -/

/-- The ordering invariant of `std::map`: keys strictly ascending in iteration
order (hence pairwise distinct). -/
def Ascending (m : ExtensionMap) : Prop := List.Pairwise (fun a b => a.1 < b.1) m

instance (m : ExtensionMap) : Decidable (Ascending m) := by
  unfold Ascending; infer_instance

/-- The binding stored under identifier `id`, if any: what `find(id)` points to. -/
def bindingAt (m : ExtensionMap) (id : Nat) : Option HeaderExtension :=
  match mapFind m id with
  | [] => none
  | e :: _ => some e.2

/-- Exact sum of the payload lengths of a list of bindings. -/
def payloadSum (m : ExtensionMap) : Nat := (m.map (fun e => e.2.length)).sum

/-- Value ranges of the element types of the container: the key is a `uint8_t` and
the cached payload length is a `uint8_t`. -/
def InRange (m : ExtensionMap) : Prop := ∀ e ∈ m, e.1 < 256 ∧ e.2.length < 256

instance (m : ExtensionMap) : Decidable (InRange m) := by
  unfold InRange; infer_instance

/-- The bindings visited by the loop of `GetLengthUntilBlockStartInBytes` before it
breaks: those in front of the first binding of kind `k`. -/
def bindingsBefore : ExtensionMap → RTPExtensionType → ExtensionMap
  | [], _ => []
  | e :: es, k => if e.2.type = k then [] else e :: bindingsBefore es k

/-- The enumeration protocol seen from a caller: starting from kind `k`, the caller
asks `Next` again and again; the first `n` kinds it holds. -/
def walkFrom (m : ExtensionMap) (k : RTPExtensionType) : Nat → List RTPExtensionType
  | 0 => []
  | n + 1 => k :: walkFrom m (RtpHeaderExtensionMap.Next m k) n

/-- The walk `First()`, `Next(First())`, `Next(Next(First()))`, ...: its first `n`
results. -/
def walk (m : ExtensionMap) (n : Nat) : List RTPExtensionType :=
  walkFrom m (RtpHeaderExtensionMap.First m) n

/-- A caller issuing a sequence of `Register(kind, id)` calls: the status codes in
call order and the final state. -/
def registerAll (lengthOf : RTPExtensionType → Nat) :
    ExtensionMap → List (RTPExtensionType × Nat) → List Int × ExtensionMap
  | m, [] => ([], m)
  | m, r :: rs =>
    ((RtpHeaderExtensionMap.Register lengthOf m r.1 r.2).1
        :: (registerAll lengthOf (RtpHeaderExtensionMap.Register lengthOf m r.1 r.2).2 rs).1,
      (registerAll lengthOf (RtpHeaderExtensionMap.Register lengthOf m r.1 r.2).2 rs).2)

/-- The class invariant of a registry: ascending keys, every identifier in `[1, 14]`,
and every cached payload length the one the constructor assigns to the kind. -/
def Invariant (lengthOf : RTPExtensionType → Nat) (m : ExtensionMap) : Prop :=
  Ascending m ∧ ∀ e ∈ m, 1 ≤ e.1 ∧ e.1 ≤ 14 ∧ e.2.length = lengthOf e.2.type

instance (lengthOf : RTPExtensionType → Nat) (m : ExtensionMap) :
    Decidable (Invariant lengthOf m) := by
  unfold Invariant; infer_instance

/-- The registries a caller can obtain: starting from the empty registry of the
constructor, by `Register` with a kind satisfying `allowed`, by `Deregister`, by
`Erase`, and as the target of a `GetCopy` from another such registry. -/
inductive ReachableBy (lengthOf : RTPExtensionType → Nat)
    (allowed : RTPExtensionType → Prop) : ExtensionMap → Prop
  | empty : ReachableBy lengthOf allowed []
  | register (m : ExtensionMap) (k : RTPExtensionType) (i : Nat) :
      ReachableBy lengthOf allowed m → allowed k →
      ReachableBy lengthOf allowed (RtpHeaderExtensionMap.Register lengthOf m k i).2
  | deregister (m : ExtensionMap) (k : RTPExtensionType) :
      ReachableBy lengthOf allowed m →
      ReachableBy lengthOf allowed (RtpHeaderExtensionMap.Deregister m k).2
  | erase (m : ExtensionMap) :
      ReachableBy lengthOf allowed m →
      ReachableBy lengthOf allowed (RtpHeaderExtensionMap.Erase m)
  | copy (source target : ExtensionMap) :
      ReachableBy lengthOf allowed source → ReachableBy lengthOf allowed target →
      ReachableBy lengthOf allowed (RtpHeaderExtensionMap.GetCopy lengthOf source target).2

/-- The registries reachable from the empty one by any calls, whatever the kinds. -/
def Reachable (lengthOf : RTPExtensionType → Nat) (m : ExtensionMap) : Prop :=
  ReachableBy lengthOf (fun _ => True) m

/-- The loop a caller writes over the enumeration protocol,
`for (k = First(); k != kRtpExtensionNone; k = Next(k))`, started at kind `k` and cut
off after `fuel` tests of the loop condition: the kinds visited, or `none` when the
sentinel was not reached within the fuel. -/
def walkToEnd (m : ExtensionMap) : Nat → RTPExtensionType → Option (List RTPExtensionType)
  | 0, _ => none
  | fuel + 1, k =>
    if k = kRtpExtensionNone then some []
    else (walkToEnd m fuel (RtpHeaderExtensionMap.Next m k)).map (fun ks => k :: ks)

end webrtc

namespace webrtc

open RtpHeaderExtensionMap

/-! ## The container primitives -/

theorem mapFind_eq_nil_iff (m : ExtensionMap) (i : Nat) :
    mapFind m i = [] ↔ ∀ x, (i, x) ∉ m := by
  induction m with
  | nil => simp [mapFind]
  | cons e es ih =>
    obtain ⟨j, y⟩ := e
    by_cases h : j = i
    · subst h
      simp only [mapFind, if_true, List.mem_cons, not_or]
      constructor
      · intro h; cases h
      · intro h; exact absurd rfl (h y).1
    · have h2 : ∀ x, (i, x) ≠ (j, y) := by
        intro x hx; exact h (by cases hx; rfl)
      simp [mapFind, h, ih, h2]

theorem bindingAt_mapInsert_self (m : ExtensionMap) (i : Nat) (x : HeaderExtension) :
    bindingAt (mapInsert m i x) i = some x := by
  induction m with
  | nil => simp [mapInsert, bindingAt, mapFind]
  | cons e es ih =>
    simp only [mapInsert]
    split
    · simp [bindingAt, mapFind]
    · split
      · simp [bindingAt, mapFind]
      · rename_i h1 h2
        have h3 : ¬ e.1 = i := fun h => h2 h.symm
        simpa [bindingAt, mapFind, h3] using ih

theorem bindingAt_mapInsert_ne (m : ExtensionMap) (i j : Nat) (x : HeaderExtension)
    (hij : j ≠ i) : bindingAt (mapInsert m i x) j = bindingAt m j := by
  induction m with
  | nil => simp [mapInsert, bindingAt, mapFind, hij.symm]
  | cons e es ih =>
    simp only [mapInsert]
    split
    · simp [bindingAt, mapFind, hij.symm]
    · split
      · rename_i h1 h2
        have h3 : ¬ e.1 = j := fun h => hij (by rw [h2, h])
        simp [bindingAt, mapFind, hij.symm, h3]
      · by_cases h3 : e.1 = j
        · simp [bindingAt, mapFind, h3]
        · simpa [bindingAt, mapFind, h3] using ih

theorem length_mapInsert (m : ExtensionMap) (i : Nat) (x : HeaderExtension)
    (h : mapFind m i = []) : (mapInsert m i x).length = m.length + 1 := by
  induction m with
  | nil => simp [mapInsert]
  | cons e es ih =>
    by_cases h1 : e.1 = i
    · simp [mapFind, h1] at h
    · simp only [mapFind, h1, if_false] at h
      have h2 : ¬ i = e.1 := fun h => h1 h.symm
      simp only [mapInsert, h2, if_false]
      split
      · simp
      · simp [ih h]

theorem GetType_eq (m : ExtensionMap) (i : Nat) :
    GetType m i = (bindingAt m i).map (fun x => x.type) := by
  unfold GetType bindingAt
  split <;> simp_all

theorem Register_cases (lengthOf : RTPExtensionType → Nat) (m : ExtensionMap)
    (k : RTPExtensionType) (i : Nat) :
    Register lengthOf m k i = (-1, m) ∨
    (1 ≤ i ∧ i ≤ 14 ∧ mapFind m i = [] ∧
      Register lengthOf m k i = (0, mapInsert m i (HeaderExtension.create lengthOf k))) := by
  unfold Register
  by_cases hr : i < 1 ∨ i > 14
  · left; rw [if_pos hr]
  · rw [if_neg hr]
    split
    · left; rfl
    · rename_i heq
      right
      exact ⟨by omega, by omega, heq, rfl⟩

theorem Register_of_free (lengthOf : RTPExtensionType → Nat) (m : ExtensionMap)
    (k : RTPExtensionType) (i : Nat) (hlo : 1 ≤ i) (hhi : i ≤ 14)
    (hfree : mapFind m i = []) :
    Register lengthOf m k i = (0, mapInsert m i (HeaderExtension.create lengthOf k)) := by
  unfold Register
  have hr : ¬ (i < 1 ∨ i > 14) := by omega
  rw [if_neg hr, hfree]

theorem Register_failure_state (lengthOf : RTPExtensionType → Nat) (m : ExtensionMap)
    (k : RTPExtensionType) (i : Nat) (h : (Register lengthOf m k i).1 = -1) :
    (Register lengthOf m k i).2 = m := by
  rcases Register_cases lengthOf m k i with h1 | ⟨_, _, _, h1⟩
  · rw [h1]
  · rw [h1] at h; cases h

theorem Register_success_state (lengthOf : RTPExtensionType → Nat) (m : ExtensionMap)
    (k : RTPExtensionType) (i : Nat) (h : (Register lengthOf m k i).1 = 0) :
    1 ≤ i ∧ i ≤ 14 ∧ mapFind m i = [] ∧
    (Register lengthOf m k i).2 = mapInsert m i (HeaderExtension.create lengthOf k) := by
  rcases Register_cases lengthOf m k i with h1 | ⟨h1, h2, h3, h4⟩
  · rw [h1] at h; cases h
  · exact ⟨h1, h2, h3, by rw [h4]⟩

theorem Ascending_cons (e : Nat × HeaderExtension) (es : ExtensionMap) :
    Ascending (e :: es) ↔ (∀ a ∈ es, e.1 < a.1) ∧ Ascending es := by
  unfold Ascending
  exact List.pairwise_cons

theorem mapFind_eq_nil_of_lt (es : ExtensionMap) (i : Nat)
    (h : ∀ a ∈ es, i < a.1) : mapFind es i = [] := by
  rw [mapFind_eq_nil_iff]
  intro x hx
  exact Nat.lt_irrefl i (h _ hx)

theorem bindingAt_eq_some_iff (m : ExtensionMap) (hasc : Ascending m) (i : Nat)
    (x : HeaderExtension) : bindingAt m i = some x ↔ (i, x) ∈ m := by
  induction m with
  | nil => simp [bindingAt, mapFind]
  | cons e es ih =>
    obtain ⟨j, y⟩ := e
    rw [Ascending_cons] at hasc
    by_cases h : j = i
    · subst h
      have hno : ∀ z, (j, z) ∉ es := fun z hz => Nat.lt_irrefl j (hasc.1 _ hz)
      simp only [bindingAt, mapFind, if_true, List.mem_cons, Option.some.injEq]
      constructor
      · intro h; left; rw [h]
      · rintro (h | h)
        · cases h; rfl
        · exact absurd h (hno x)
    · have h2 : (i, x) ≠ (j, y) := by
        intro hx; exact h (by cases hx; rfl)
      have ih2 := ih hasc.2
      unfold bindingAt at ih2 ⊢
      simp only [mapFind, h, if_false, List.mem_cons, h2, false_or]
      exact ih2

theorem bindingAt_mapErase_ne (m : ExtensionMap) (i j : Nat) (hij : j ≠ i) :
    bindingAt (mapErase m i) j = bindingAt m j := by
  induction m with
  | nil => simp [mapErase]
  | cons e es ih =>
    simp only [mapErase]
    split
    · rename_i h
      have h3 : ¬ e.1 = j := fun h2 => hij (by rw [← h2, h])
      simp [bindingAt, mapFind, h3]
    · by_cases h3 : e.1 = j
      · simp [bindingAt, mapFind, h3]
      · simpa [bindingAt, mapFind, h3] using ih

theorem bindingAt_mapErase_self (m : ExtensionMap) (hasc : Ascending m) (i : Nat) :
    bindingAt (mapErase m i) i = none := by
  induction m with
  | nil => simp [mapErase, bindingAt, mapFind]
  | cons e es ih =>
    rw [Ascending_cons] at hasc
    simp only [mapErase]
    split
    · rename_i h
      have := mapFind_eq_nil_of_lt es i (by rw [← h]; exact hasc.1)
      simp [bindingAt, this]
    · rename_i h
      simpa [bindingAt, mapFind, h] using ih hasc.2

theorem length_mapErase (m : ExtensionMap) (i : Nat) (h : mapFind m i ≠ []) :
    (mapErase m i).length + 1 = m.length := by
  induction m with
  | nil => simp [mapFind] at h
  | cons e es ih =>
    by_cases h1 : e.1 = i
    · simp [mapErase, h1]
    · simp only [mapFind, h1, if_false] at h
      simp [mapErase, h1, ih h]

theorem perm_mapErase (m : ExtensionMap) (hasc : Ascending m) (i : Nat)
    (x : HeaderExtension) (hx : (i, x) ∈ m) : List.Perm m ((i, x) :: mapErase m i) := by
  induction m with
  | nil => simp at hx
  | cons e es ih =>
    rw [Ascending_cons] at hasc
    by_cases h1 : e.1 = i
    · have he : e = (i, x) := by
        rcases List.mem_cons.1 hx with h | h
        · exact h.symm
        · exact absurd (hasc.1 _ h) (by simp [h1])
      simp [mapErase, h1, he]
    · have hx2 : (i, x) ∈ es := by
        rcases List.mem_cons.1 hx with h | h
        · exact absurd (by rw [← h]) h1
        · exact h
      simp only [mapErase, h1, if_false]
      exact ((ih hasc.2 hx2).cons e).trans (List.Perm.swap _ _ _)

theorem Ascending_mapErase (m : ExtensionMap) (hasc : Ascending m) (i : Nat) :
    Ascending (mapErase m i) := by
  induction m with
  | nil => simpa [mapErase] using hasc
  | cons e es ih =>
    rw [Ascending_cons] at hasc
    simp only [mapErase]
    split
    · exact hasc.2
    · rw [Ascending_cons]
      refine ⟨?_, ih hasc.2⟩
      intro a ha
      have hsub : ∀ (l : ExtensionMap), a ∈ mapErase l i → a ∈ l := by
        intro l
        induction l with
        | nil => simp [mapErase]
        | cons b bs ihb =>
          simp only [mapErase]
          split
          · intro h; exact List.mem_cons_of_mem _ h
          · intro h
            rcases List.mem_cons.1 h with h | h
            · rw [h]; exact List.mem_cons_self _ _
            · exact List.mem_cons_of_mem _ (ihb h)
      exact hasc.1 a (hsub es ha)

theorem mem_mapInsert_imp (m : ExtensionMap) (i : Nat) (x : HeaderExtension)
    (a : Nat × HeaderExtension) (h : a ∈ mapInsert m i x) : a = (i, x) ∨ a ∈ m := by
  induction m with
  | nil => simpa [mapInsert] using h
  | cons e es ih =>
    simp only [mapInsert] at h
    split at h
    · rcases List.mem_cons.1 h with h | h
      · exact Or.inl h
      · exact Or.inr h
    · split at h
      · rcases List.mem_cons.1 h with h | h
        · exact Or.inl h
        · exact Or.inr (List.mem_cons_of_mem _ h)
      · rcases List.mem_cons.1 h with h | h
        · exact Or.inr (by rw [h]; exact List.mem_cons_self _ _)
        · rcases ih h with h | h
          · exact Or.inl h
          · exact Or.inr (List.mem_cons_of_mem _ h)

theorem mem_mapInsert_self (m : ExtensionMap) (i : Nat) (x : HeaderExtension) :
    (i, x) ∈ mapInsert m i x := by
  induction m with
  | nil => simp [mapInsert]
  | cons e es ih =>
    simp only [mapInsert]
    split
    · exact List.mem_cons_self _ _
    · split
      · exact List.mem_cons_self _ _
      · exact List.mem_cons_of_mem _ ih

theorem mem_mapInsert_of_mem (m : ExtensionMap) (i : Nat) (x : HeaderExtension)
    (hfree : mapFind m i = []) (a : Nat × HeaderExtension) (h : a ∈ m) :
    a ∈ mapInsert m i x := by
  induction m with
  | nil => simp at h
  | cons e es ih =>
    by_cases h1 : e.1 = i
    · simp [mapFind, h1] at hfree
    · simp only [mapFind, h1, if_false] at hfree
      have h2 : ¬ i = e.1 := fun h => h1 h.symm
      simp only [mapInsert, h2, if_false]
      split
      · exact List.mem_cons_of_mem _ h
      · rcases List.mem_cons.1 h with h | h
        · rw [h]; exact List.mem_cons_self _ _
        · exact List.mem_cons_of_mem _ (ih hfree h)

theorem Ascending_mapInsert (m : ExtensionMap) (hasc : Ascending m) (i : Nat)
    (x : HeaderExtension) : Ascending (mapInsert m i x) := by
  induction m with
  | nil => simp [mapInsert, Ascending]
  | cons e es ih =>
    have hasc0 := hasc
    rw [Ascending_cons] at hasc
    simp only [mapInsert]
    split
    · rename_i h
      rw [Ascending_cons]
      refine ⟨?_, hasc0⟩
      intro a ha
      rcases List.mem_cons.1 ha with h2 | h2
      · rw [h2]; exact h
      · exact Nat.lt_trans h (hasc.1 a h2)
    · split
      · rename_i h1 h2
        rw [Ascending_cons]
        refine ⟨?_, hasc.2⟩
        intro a ha
        have := hasc.1 a ha
        simp only
        omega
      · rename_i h1 h2
        rw [Ascending_cons]
        refine ⟨?_, ih hasc.2⟩
        intro a ha
        rcases mem_mapInsert_imp es i x a ha with h3 | h3
        · rw [h3]; simp only; omega
        · exact hasc.1 a h3

theorem mapErase_mapInsert (m : ExtensionMap) (i : Nat) (x : HeaderExtension)
    (hfree : mapFind m i = []) : mapErase (mapInsert m i x) i = m := by
  induction m with
  | nil => simp [mapInsert, mapErase]
  | cons e es ih =>
    by_cases h1 : e.1 = i
    · simp [mapFind, h1] at hfree
    · simp only [mapFind, h1, if_false] at hfree
      have h2 : ¬ i = e.1 := fun h => h1 h.symm
      simp only [mapInsert, h2, if_false]
      split
      · simp [mapErase]
      · simp [mapErase, h1, ih hfree]

/-! ## The scan `GetId` -/

theorem GetId_eq_none_iff (m : ExtensionMap) (k : RTPExtensionType) :
    GetId m k = none ↔ ∀ j x, (j, x) ∈ m → x.type ≠ k := by
  induction m with
  | nil => simp [GetId]
  | cons e es ih =>
    obtain ⟨j, y⟩ := e
    by_cases h : y.type = k
    · simp only [GetId, h, if_true]
      constructor
      · intro h; cases h
      · intro h2; exact absurd h (h2 j y (List.mem_cons_self _ _))
    · simp only [GetId, h, if_false, ih]
      constructor
      · intro h2 j2 x hx
        rcases List.mem_cons.1 hx with h3 | h3
        · cases h3; exact h
        · exact h2 j2 x h3
      · intro h2 j2 x hx
        exact h2 j2 x (List.mem_cons_of_mem _ hx)

theorem GetId_some_mem (m : ExtensionMap) (k : RTPExtensionType) (i : Nat)
    (h : GetId m k = some i) : ∃ x, (i, x) ∈ m ∧ x.type = k := by
  induction m with
  | nil => simp [GetId] at h
  | cons e es ih =>
    obtain ⟨j, y⟩ := e
    by_cases h1 : y.type = k
    · simp only [GetId, h1, if_true, Option.some.injEq] at h
      subst h
      exact ⟨y, List.mem_cons_self _ _, h1⟩
    · simp only [GetId, h1, if_false] at h
      obtain ⟨x, hx, hk⟩ := ih h
      exact ⟨x, List.mem_cons_of_mem _ hx, hk⟩

theorem GetId_some_le (m : ExtensionMap) (hasc : Ascending m) (k : RTPExtensionType)
    (i : Nat) (h : GetId m k = some i) :
    ∀ j x, (j, x) ∈ m → x.type = k → i ≤ j := by
  induction m with
  | nil => simp [GetId] at h
  | cons e es ih =>
    obtain ⟨j0, y⟩ := e
    rw [Ascending_cons] at hasc
    intro j x hx hk
    by_cases h1 : y.type = k
    · simp only [GetId, h1, if_true, Option.some.injEq] at h
      subst h
      rcases List.mem_cons.1 hx with h3 | h3
      · cases h3; exact Nat.le_refl _
      · exact Nat.le_of_lt (hasc.1 _ h3)
    · simp only [GetId, h1, if_false] at h
      rcases List.mem_cons.1 hx with h3 | h3
      · cases h3; exact absurd hk h1
      · exact ih hasc.2 h j x h3 hk

theorem GetId_some_mapFind (m : ExtensionMap) (k : RTPExtensionType) (i : Nat)
    (h : GetId m k = some i) : mapFind m i ≠ [] := by
  obtain ⟨x, hx, _⟩ := GetId_some_mem m k i h
  intro hnil
  exact (mapFind_eq_nil_iff m i).1 hnil x hx

theorem GetId_of_least (m : ExtensionMap) (hasc : Ascending m) (k : RTPExtensionType)
    (i : Nat) (x : HeaderExtension) (hx : (i, x) ∈ m) (hk : x.type = k)
    (hleast : ∀ j y, (j, y) ∈ m → y.type = k → i ≤ j) : GetId m k = some i := by
  cases hg : GetId m k with
  | none => exact absurd hk ((GetId_eq_none_iff m k).1 hg i x hx)
  | some i2 =>
    obtain ⟨x2, hx2, hk2⟩ := GetId_some_mem m k i2 hg
    have h1 := hleast i2 x2 hx2 hk2
    have h2 := GetId_some_le m hasc k i2 hg i x hx hk
    rw [Nat.le_antisymm h1 h2]

theorem Deregister_of_GetId_none (m : ExtensionMap) (k : RTPExtensionType)
    (h : GetId m k = none) : Deregister m k = (-1, m) := by
  simp only [Deregister, h]

theorem Deregister_of_GetId_some (m : ExtensionMap) (k : RTPExtensionType) (i : Nat)
    (h : GetId m k = some i) : Deregister m k = (0, mapErase m i) := by
  have hne := GetId_some_mapFind m k i h
  simp only [Deregister, h]
  split
  · rename_i heq; exact absurd heq hne
  · rfl

/-! ## The 16-bit accumulators -/

theorem length_le_of_ascending (n : Nat) (m : ExtensionMap) (lo : Nat)
    (hasc : Ascending m) (hb : ∀ e ∈ m, lo ≤ e.1 ∧ e.1 < n) : m.length ≤ n - lo := by
  induction m generalizing lo with
  | nil => simp
  | cons e es ih =>
    rw [Ascending_cons] at hasc
    have he := hb e (List.mem_cons_self _ _)
    have := ih (e.1 + 1) hasc.2 (by
      intro a ha
      have h1 := hasc.1 a ha
      have h2 := hb a (List.mem_cons_of_mem _ ha)
      omega)
    simp only [List.length_cons]
    omega

theorem payloadSum_cons (e : Nat × HeaderExtension) (es : ExtensionMap) :
    payloadSum (e :: es) = e.2.length + payloadSum es := by
  simp [payloadSum]

theorem payloadSum_le (m : ExtensionMap) (hb : ∀ e ∈ m, e.2.length < 256) :
    payloadSum m ≤ 255 * m.length := by
  induction m with
  | nil => simp [payloadSum]
  | cons e es ih =>
    have he := hb e (List.mem_cons_self _ _)
    have := ih (fun a ha => hb a (List.mem_cons_of_mem _ ha))
    rw [payloadSum_cons, List.length_cons]
    omega

theorem payloadSum_bound (m : ExtensionMap) (hasc : Ascending m) (hr : InRange m) :
    payloadSum m ≤ 65280 := by
  have h1 := payloadSum_le m (fun e he => (hr e he).2)
  have h2 := length_le_of_ascending 256 m 0 hasc
    (fun e he => ⟨Nat.zero_le _, (hr e he).1⟩)
  omega

theorem totalLengthLoop_eq (m : ExtensionMap) (acc : Nat)
    (h : acc + payloadSum m < 65536) : totalLengthLoop m acc = acc + payloadSum m := by
  induction m generalizing acc with
  | nil => simp [totalLengthLoop, payloadSum]
  | cons e es ih =>
    rw [payloadSum_cons] at h
    have hmod : (acc + e.2.length) % 65536 = acc + e.2.length :=
      Nat.mod_eq_of_lt (by omega)
    simp only [totalLengthLoop, hmod]
    rw [ih _ (by omega), payloadSum_cons]
    omega

theorem payloadSum_bindingsBefore_le (m : ExtensionMap) (k : RTPExtensionType) :
    payloadSum (bindingsBefore m k) ≤ payloadSum m := by
  induction m with
  | nil => simp [bindingsBefore]
  | cons e es ih =>
    simp only [bindingsBefore]
    split
    · simp [payloadSum]
    · rw [payloadSum_cons, payloadSum_cons]; omega

theorem lengthUntilLoop_eq (m : ExtensionMap) (k : RTPExtensionType) (acc : Nat)
    (h : acc + payloadSum (bindingsBefore m k) < 65536) :
    lengthUntilLoop m k acc = acc + payloadSum (bindingsBefore m k) := by
  induction m generalizing acc with
  | nil => simp [lengthUntilLoop, bindingsBefore, payloadSum]
  | cons e es ih =>
    by_cases hk : e.2.type = k
    · simp [lengthUntilLoop, bindingsBefore, hk, payloadSum]
    · simp only [bindingsBefore, hk, if_false, payloadSum_cons] at h ⊢
      have hmod : (acc + e.2.length) % 65536 = acc + e.2.length :=
        Nat.mod_eq_of_lt (by omega)
      simp only [lengthUntilLoop, hk, if_false, hmod]
      rw [ih _ (by omega)]
      omega

theorem bindingsBefore_eq_filter_lt (m : ExtensionMap) (hasc : Ascending m)
    (k : RTPExtensionType) (i : Nat) (hg : GetId m k = some i) :
    bindingsBefore m k = m.filter (fun e => decide (e.1 < i)) := by
  induction m with
  | nil => simp [bindingsBefore]
  | cons e es ih =>
    rw [Ascending_cons] at hasc
    by_cases hk : e.2.type = k
    · simp only [GetId, hk, if_true, Option.some.injEq] at hg
      have hnone : es.filter (fun a => decide (a.1 < i)) = [] := by
        rw [List.filter_eq_nil_iff]
        intro a ha
        have := hasc.1 a ha
        simp only [decide_eq_true_eq]
        omega
      have hi : ¬ (fun a : Nat × HeaderExtension => decide (a.1 < i)) e = true := by
        simp only [decide_eq_true_eq]; omega
      have hf : (e :: es).filter (fun a => decide (a.1 < i))
          = es.filter (fun a => decide (a.1 < i)) := List.filter_cons_of_neg hi
      rw [hf, hnone]
      simp [bindingsBefore, hk]
    · simp only [GetId, hk, if_false] at hg
      obtain ⟨x, hx, _⟩ := GetId_some_mem es k i hg
      have hlt : (fun a : Nat × HeaderExtension => decide (a.1 < i)) e = true := by
        simp only [decide_eq_true_eq]; exact hasc.1 _ hx
      have hf : (e :: es).filter (fun a => decide (a.1 < i))
          = e :: es.filter (fun a => decide (a.1 < i)) := List.filter_cons_of_pos hlt
      rw [hf, ← ih hasc.2 hg]
      simp [bindingsBefore, hk]

/-! ## The enumeration protocol -/

theorem GetId_append_of_first (pre rest : ExtensionMap) (e : Nat × HeaderExtension)
    (h : ∀ a ∈ pre, a.2.type ≠ e.2.type) :
    GetId (pre ++ e :: rest) e.2.type = some e.1 := by
  induction pre with
  | nil => simp [GetId]
  | cons a as ih =>
    have ha := h a (List.mem_cons_self _ _)
    simp only [List.cons_append, GetId, ha, if_false]
    exact ih (fun b hb => h b (List.mem_cons_of_mem _ hb))

theorem mapFind_append_of_first (pre rest : ExtensionMap) (e : Nat × HeaderExtension)
    (h : ∀ a ∈ pre, a.1 ≠ e.1) : mapFind (pre ++ e :: rest) e.1 = e :: rest := by
  induction pre with
  | nil => simp [mapFind]
  | cons a as ih =>
    have ha := h a (List.mem_cons_self _ _)
    simp only [List.cons_append, mapFind, ha, if_false]
    exact ih (fun b hb => h b (List.mem_cons_of_mem _ hb))

theorem Next_append (pre rest : ExtensionMap) (e : Nat × HeaderExtension)
    (hk : ∀ a ∈ pre, a.2.type ≠ e.2.type) (hi : ∀ a ∈ pre, a.1 ≠ e.1) :
    Next (pre ++ e :: rest) e.2.type = First rest := by
  unfold Next
  rw [GetId_append_of_first pre rest e hk]
  simp only
  rw [mapFind_append_of_first pre rest e hi]
  cases rest <;> rfl

theorem Ascending_append_ne (pre rest : ExtensionMap) (e : Nat × HeaderExtension)
    (hasc : Ascending (pre ++ e :: rest)) : ∀ a ∈ pre, a.1 ≠ e.1 := by
  intro a ha
  unfold Ascending at hasc
  rw [List.pairwise_append] at hasc
  exact Nat.ne_of_lt (hasc.2.2 a ha e (List.mem_cons_self _ _))

theorem walkFrom_suffix (pre suffix : ExtensionMap)
    (hasc : Ascending (pre ++ suffix))
    (hd : List.Pairwise (fun a b : Nat × HeaderExtension => a.2.type ≠ b.2.type)
      (pre ++ suffix)) :
    walkFrom (pre ++ suffix) (First suffix) (suffix.length + 1)
      = suffix.map (fun e => e.2.type) ++ [kRtpExtensionNone] := by
  induction suffix generalizing pre with
  | nil => simp [walkFrom, First]
  | cons e rest ih =>
    have hk : ∀ a ∈ pre, a.2.type ≠ e.2.type := by
      intro a ha
      rw [List.pairwise_append] at hd
      exact hd.2.2 a ha e (List.mem_cons_self _ _)
    have hi := Ascending_append_ne pre rest e hasc
    have hnext := Next_append pre rest e hk hi
    have hsplit : pre ++ e :: rest = (pre ++ [e]) ++ rest := by simp
    have ih2 := ih (pre ++ [e]) (by rw [← hsplit]; exact hasc) (by rw [← hsplit]; exact hd)
    rw [← hsplit] at ih2
    simp only [List.length_cons, First, List.map_cons, List.cons_append]
    rw [walkFrom, hnext, ih2]

theorem walk_of_distinct_kinds (m : ExtensionMap) (hasc : Ascending m)
    (hd : (m.map (fun e => e.2.type)).Nodup) :
    walk m (m.length + 1) = m.map (fun e => e.2.type) ++ [kRtpExtensionNone] := by
  have hd2 : List.Pairwise (fun a b : Nat × HeaderExtension => a.2.type ≠ b.2.type) m := by
    unfold List.Nodup at hd
    rw [List.pairwise_map] at hd
    exact hd
  have := walkFrom_suffix [] m (by simpa using hasc) (by simpa using hd2)
  simpa [walk] using this

theorem perm_mapInsert (m : ExtensionMap) (i : Nat) (x : HeaderExtension)
    (hfree : mapFind m i = []) : List.Perm (mapInsert m i x) ((i, x) :: m) := by
  induction m with
  | nil => simp [mapInsert]
  | cons e es ih =>
    by_cases h1 : e.1 = i
    · simp [mapFind, h1] at hfree
    · simp only [mapFind, h1, if_false] at hfree
      have h2 : ¬ i = e.1 := fun h => h1 h.symm
      simp only [mapInsert, h2, if_false]
      split
      · exact List.Perm.refl _
      · exact ((ih hfree).cons e).trans (List.Perm.swap _ _ _)

theorem registerAll_spec (lengthOf : RTPExtensionType → Nat) (m : ExtensionMap)
    (regs : List (RTPExtensionType × Nat)) (hasc : Ascending m)
    (hok : ∀ c ∈ (registerAll lengthOf m regs).1, c = 0) :
    Ascending (registerAll lengthOf m regs).2 ∧
    List.Perm (registerAll lengthOf m regs).2
      (regs.map (fun r => (r.2, HeaderExtension.create lengthOf r.1)) ++ m) := by
  induction regs generalizing m with
  | nil => simpa [registerAll] using hasc
  | cons r rs ih =>
    simp only [registerAll, List.mem_cons, forall_eq_or_imp] at hok
    obtain ⟨_, _, hnil, hst⟩ := Register_success_state lengthOf m r.1 r.2 hok.1
    have ih2 := ih (Register lengthOf m r.1 r.2).2
      (by rw [hst]; exact Ascending_mapInsert m hasc _ _) hok.2
    simp only [registerAll]
    refine ⟨ih2.1, ?_⟩
    refine ih2.2.trans ?_
    rw [hst, List.map_cons, List.cons_append]
    exact ((perm_mapInsert m r.2 _ hnil).append_left _).trans List.perm_middle

/-! ## Copying -/

theorem mapInsert_of_all_lt (pre : ExtensionMap) (i : Nat) (x : HeaderExtension)
    (h : ∀ a ∈ pre, a.1 < i) : mapInsert pre i x = pre ++ [(i, x)] := by
  induction pre with
  | nil => simp [mapInsert]
  | cons e es ih =>
    have he := h e (List.mem_cons_self _ _)
    have h1 : ¬ i < e.1 := by omega
    have h2 : ¬ i = e.1 := by omega
    simp only [mapInsert, h1, h2, if_false, List.cons_append]
    rw [ih (fun a ha => h a (List.mem_cons_of_mem _ ha))]

theorem copyLoop_append (lengthOf : RTPExtensionType → Nat) (pre suffix : ExtensionMap)
    (hasc : Ascending (pre ++ suffix))
    (hinv : ∀ e ∈ suffix, 1 ≤ e.1 ∧ e.1 ≤ 14 ∧ e.2.length = lengthOf e.2.type) :
    copyLoop lengthOf suffix pre = pre ++ suffix := by
  induction suffix generalizing pre with
  | nil => simp [copyLoop]
  | cons e rest ih =>
    obtain ⟨hlo, hhi, hlen⟩ := hinv e (List.mem_cons_self _ _)
    have hlt : ∀ a ∈ pre, a.1 < e.1 := by
      intro a ha
      unfold Ascending at hasc
      rw [List.pairwise_append] at hasc
      exact hasc.2.2 a ha e (List.mem_cons_self _ _)
    have hreg : (Register lengthOf pre e.2.type e.1).2 = pre ++ [e] := by
      have hfree : mapFind pre e.1 = [] := by
        rw [mapFind_eq_nil_iff]
        intro x hx
        exact Nat.lt_irrefl _ (hlt (e.1, x) hx)
      rw [Register_of_free lengthOf pre e.2.type e.1 hlo hhi hfree]
      simp only
      rw [mapInsert_of_all_lt pre e.1 _ hlt]
      have : HeaderExtension.create lengthOf e.2.type = e.2 := by
        unfold HeaderExtension.create
        rw [← hlen]
      rw [this]
    have hsplit : pre ++ e :: rest = (pre ++ [e]) ++ rest := by simp
    simp only [copyLoop]
    rw [hreg, ih (pre ++ [e]) (by rw [← hsplit]; exact hasc)
      (fun a ha => hinv a (List.mem_cons_of_mem _ ha)), hsplit]

/-! ## Reachable registries -/

theorem mem_mapErase_imp (m : ExtensionMap) (i : Nat) (a : Nat × HeaderExtension)
    (h : a ∈ mapErase m i) : a ∈ m := by
  induction m with
  | nil => simp [mapErase] at h
  | cons e es ih =>
    simp only [mapErase] at h
    split at h
    · exact List.mem_cons_of_mem _ h
    · rcases List.mem_cons.1 h with h | h
      · rw [h]; exact List.mem_cons_self _ _
      · exact List.mem_cons_of_mem _ (ih h)

theorem Erase_eq_nil (m : ExtensionMap) : Erase m = [] := by
  induction m with
  | nil => rfl
  | cons e es ih => simpa [Erase] using ih

theorem Deregister_state_cases (m : ExtensionMap) (k : RTPExtensionType) :
    (Deregister m k).2 = m ∨ ∃ i, (Deregister m k).2 = mapErase m i := by
  cases hg : GetId m k with
  | none => left; rw [Deregister_of_GetId_none m k hg]
  | some i => right; exact ⟨i, by rw [Deregister_of_GetId_some m k i hg]⟩

theorem Invariant_Register (lengthOf : RTPExtensionType → Nat) (m : ExtensionMap)
    (k : RTPExtensionType) (i : Nat) (hinv : Invariant lengthOf m) :
    Invariant lengthOf (Register lengthOf m k i).2 := by
  rcases Register_cases lengthOf m k i with h | ⟨hlo, hhi, _, h⟩
  · rw [h]; exact hinv
  · rw [h]
    refine ⟨Ascending_mapInsert m hinv.1 i _, ?_⟩
    intro a ha
    rcases mem_mapInsert_imp m i _ a ha with h2 | h2
    · rw [h2]; exact ⟨hlo, hhi, rfl⟩
    · exact hinv.2 a h2

theorem Invariant_Deregister (lengthOf : RTPExtensionType → Nat) (m : ExtensionMap)
    (k : RTPExtensionType) (hinv : Invariant lengthOf m) :
    Invariant lengthOf (Deregister m k).2 := by
  rcases Deregister_state_cases m k with h | ⟨i, h⟩
  · rw [h]; exact hinv
  · rw [h]
    exact ⟨Ascending_mapErase m hinv.1 i,
      fun a ha => hinv.2 a (mem_mapErase_imp m i a ha)⟩

theorem Invariant_copyLoop (lengthOf : RTPExtensionType → Nat)
    (source target : ExtensionMap) (hinv : Invariant lengthOf target) :
    Invariant lengthOf (copyLoop lengthOf source target) := by
  induction source generalizing target with
  | nil => simpa [copyLoop] using hinv
  | cons e es ih =>
    simp only [copyLoop]
    exact ih _ (Invariant_Register lengthOf target e.2.type e.1 hinv)

theorem Invariant_of_ReachableBy (lengthOf : RTPExtensionType → Nat)
    (allowed : RTPExtensionType → Prop) (m : ExtensionMap)
    (h : ReachableBy lengthOf allowed m) : Invariant lengthOf m := by
  induction h with
  | empty => exact ⟨by simp [Ascending], by simp⟩
  | register m k i _ _ ih => exact Invariant_Register lengthOf m k i ih
  | deregister m k _ ih => exact Invariant_Deregister lengthOf m k ih
  | erase m _ _ => rw [Erase_eq_nil]; exact ⟨by simp [Ascending], by simp⟩
  | copy source target _ _ _ ih2 => exact Invariant_copyLoop lengthOf source target ih2

theorem length_le_of_Invariant (lengthOf : RTPExtensionType → Nat) (m : ExtensionMap)
    (hinv : Invariant lengthOf m) : m.length ≤ 14 := by
  have := length_le_of_ascending 15 m 1 hinv.1 (fun e he => by
    have := hinv.2 e he
    omega)
  omega

theorem kinds_Register (lengthOf : RTPExtensionType → Nat)
    (allowed : RTPExtensionType → Prop) (m : ExtensionMap) (k : RTPExtensionType)
    (i : Nat) (hall : ∀ e ∈ m, allowed e.2.type) (hk : allowed k) :
    ∀ e ∈ (Register lengthOf m k i).2, allowed e.2.type := by
  rcases Register_cases lengthOf m k i with h | ⟨_, _, _, h⟩
  · rw [h]; exact hall
  · rw [h]
    intro a ha
    rcases mem_mapInsert_imp m i _ a ha with h2 | h2
    · rw [h2]; exact hk
    · exact hall a h2

theorem kinds_copyLoop (lengthOf : RTPExtensionType → Nat)
    (allowed : RTPExtensionType → Prop) (source target : ExtensionMap)
    (hs : ∀ e ∈ source, allowed e.2.type) (ht : ∀ e ∈ target, allowed e.2.type) :
    ∀ e ∈ copyLoop lengthOf source target, allowed e.2.type := by
  induction source generalizing target with
  | nil => simpa [copyLoop] using ht
  | cons e es ih =>
    simp only [copyLoop]
    exact ih _ (fun a ha => hs a (List.mem_cons_of_mem _ ha))
      (kinds_Register lengthOf allowed target e.2.type e.1 ht
        (hs e (List.mem_cons_self _ _)))

theorem kinds_of_ReachableBy (lengthOf : RTPExtensionType → Nat)
    (allowed : RTPExtensionType → Prop) (m : ExtensionMap)
    (h : ReachableBy lengthOf allowed m) : ∀ e ∈ m, allowed e.2.type := by
  induction h with
  | empty => simp
  | register m k i _ hk ih => exact kinds_Register lengthOf allowed m k i ih hk
  | deregister m k _ ih =>
    rcases Deregister_state_cases m k with h | ⟨i, h⟩
    · rw [h]; exact ih
    · rw [h]; exact fun a ha => ih a (mem_mapErase_imp m i a ha)
  | erase m _ _ => rw [Erase_eq_nil]; simp
  | copy source target _ _ ih1 ih2 =>
    exact kinds_copyLoop lengthOf allowed source target ih1 ih2

/-! ## The successor of a binding -/

theorem mapFind_split (m : ExtensionMap) (i : Nat) (e : Nat × HeaderExtension)
    (rest : ExtensionMap) (h : mapFind m i = e :: rest) :
    ∃ pre, m = pre ++ e :: rest ∧ e.1 = i := by
  induction m with
  | nil => simp [mapFind] at h
  | cons a as ih =>
    by_cases h1 : a.1 = i
    · simp only [mapFind, h1, if_true, List.cons.injEq] at h
      refine ⟨[], ?_, ?_⟩
      · simp [h.1, h.2]
      · rw [← h.1]; exact h1
    · simp only [mapFind, h1, if_false] at h
      obtain ⟨pre, hpre, he⟩ := ih h
      exact ⟨a :: pre, by rw [hpre]; rfl, he⟩

theorem Next_eq_First_rest (m : ExtensionMap) (k : RTPExtensionType) (i : Nat)
    (e : Nat × HeaderExtension) (rest : ExtensionMap)
    (hg : GetId m k = some i) (hf : mapFind m i = e :: rest) :
    Next m k = First rest := by
  unfold Next
  rw [hg]
  simp only
  rw [hf]
  cases rest <;> rfl

theorem Next_cases (m : ExtensionMap) (hasc : Ascending m) (k : RTPExtensionType)
    (i : Nat) (hg : GetId m k = some i) :
    ((∀ j y, (j, y) ∈ m → j ≤ i) ∧ Next m k = kRtpExtensionNone) ∨
    (∃ j y, (j, y) ∈ m ∧ i < j ∧ (∀ j2 y2, (j2, y2) ∈ m → i < j2 → j ≤ j2) ∧
      Next m k = y.type) := by
  have hne := GetId_some_mapFind m k i hg
  cases hf : mapFind m i with
  | nil => exact absurd hf hne
  | cons e rest =>
    obtain ⟨pre, hm, he⟩ := mapFind_split m i e rest hf
    have hnext := Next_eq_First_rest m k i e rest hg hf
    have hasc2 := hasc
    unfold Ascending at hasc2
    rw [hm, List.pairwise_append, List.pairwise_cons] at hasc2
    obtain ⟨_, ⟨hrest, hrasc⟩, hpre⟩ := hasc2
    cases rest with
    | nil =>
      left
      refine ⟨?_, hnext⟩
      intro j y hy
      rw [hm] at hy
      rcases List.mem_append.1 hy with h | h
      · have := hpre _ h e (List.mem_cons_self _ _)
        simp only at this
        omega
      · rcases List.mem_cons.1 h with h | h
        · rw [← h] at he; simp only at he; omega
        · cases h
    | cons r rs =>
      right
      refine ⟨r.1, r.2, ?_, ?_, ?_, hnext⟩
      · rw [hm]
        exact List.mem_append_right _
          (List.mem_cons_of_mem _ (List.mem_cons_self _ _))
      · have := hrest r (List.mem_cons_self _ _)
        omega
      · intro j2 y2 hy hlt
        rw [hm] at hy
        rcases List.mem_append.1 hy with h | h
        · have := hpre _ h e (List.mem_cons_self _ _)
          simp only at this
          omega
        · rcases List.mem_cons.1 h with h | h
          · rw [← h] at he; simp only at he; omega
          · rcases List.mem_cons.1 h with h | h
            · rw [← h]
            · rw [List.pairwise_cons] at hrasc
              have := hrasc.1 _ h
              simp only at this
              omega

/-! ## The caller's loop over `First` and `Next` -/

theorem walkToEnd_suffix (pre suffix : ExtensionMap)
    (hasc : Ascending (pre ++ suffix))
    (hd : List.Pairwise (fun a b : Nat × HeaderExtension => a.2.type ≠ b.2.type)
      (pre ++ suffix))
    (hn : ∀ e ∈ suffix, e.2.type ≠ kRtpExtensionNone) (fuel : Nat)
    (hfuel : suffix.length + 1 ≤ fuel) :
    walkToEnd (pre ++ suffix) fuel (First suffix)
      = some (suffix.map (fun e => e.2.type)) := by
  induction suffix generalizing pre fuel with
  | nil =>
    cases fuel with
    | zero => simp at hfuel
    | succ f => simp [walkToEnd, First]
  | cons e rest ih =>
    cases fuel with
    | zero => simp at hfuel
    | succ f =>
      have hk : ∀ a ∈ pre, a.2.type ≠ e.2.type := by
        intro a ha
        rw [List.pairwise_append] at hd
        exact hd.2.2 a ha e (List.mem_cons_self _ _)
      have hi := Ascending_append_ne pre rest e hasc
      have hnext := Next_append pre rest e hk hi
      have hsplit : pre ++ e :: rest = (pre ++ [e]) ++ rest := by simp
      have ih2 := ih (pre ++ [e]) (by rw [← hsplit]; exact hasc)
        (by rw [← hsplit]; exact hd)
        (fun a ha => hn a (List.mem_cons_of_mem _ ha)) f
        (by simp only [List.length_cons] at hfuel; omega)
      rw [← hsplit] at ih2
      have hne := hn e (List.mem_cons_self _ _)
      show walkToEnd (pre ++ e :: rest) (f + 1) e.2.type = _
      rw [walkToEnd, if_neg hne, hnext, ih2]
      rfl

theorem Ascending_perm_eq (m1 m2 : ExtensionMap) (h1 : Ascending m1) (h2 : Ascending m2)
    (hp : List.Perm m1 m2) : m1 = m2 := by
  haveI : IsAntisymm (Nat × HeaderExtension) (fun a b => a.1 < b.1) :=
    ⟨fun a b hab hba => absurd hab (Nat.lt_asymm hba)⟩
  exact List.eq_of_perm_of_sorted hp h1 h2

/-! ## Copying into any target -/

theorem bindingAt_eq_none_iff (m : ExtensionMap) (i : Nat) :
    bindingAt m i = none ↔ mapFind m i = [] := by
  unfold bindingAt
  cases mapFind m i <;> simp

theorem bindingAt_cons_ne (e : Nat × HeaderExtension) (es : ExtensionMap) (i : Nat)
    (h : e.1 ≠ i) : bindingAt (e :: es) i = bindingAt es i := by
  simp [bindingAt, mapFind, h]

theorem bindingAt_cons_self (e : Nat × HeaderExtension) (es : ExtensionMap) :
    bindingAt (e :: es) e.1 = some e.2 := by
  simp [bindingAt, mapFind]

theorem copyLoop_bindingAt (lengthOf : RTPExtensionType → Nat)
    (source target : ExtensionMap)
    (hs : ∀ e ∈ source, 1 ≤ e.1 ∧ e.1 ≤ 14 ∧ e.2.length = lengthOf e.2.type) (i : Nat) :
    (∀ x, bindingAt target i = some x →
      bindingAt (copyLoop lengthOf source target) i = some x) ∧
    (bindingAt target i = none →
      bindingAt (copyLoop lengthOf source target) i = bindingAt source i) := by
  induction source generalizing target with
  | nil =>
    refine ⟨fun x hx => by simpa [copyLoop] using hx, fun h => ?_⟩
    simp only [copyLoop, h]
    rfl
  | cons e rest ih =>
    obtain ⟨hlo, hhi, hlen⟩ := hs e (List.mem_cons_self _ _)
    have ih2 := ih (Register lengthOf target e.2.type e.1).2
      (fun a ha => hs a (List.mem_cons_of_mem _ ha))
    simp only [copyLoop]
    by_cases hfree : mapFind target e.1 = []
    · have hcreate : HeaderExtension.create lengthOf e.2.type = e.2 := by
        unfold HeaderExtension.create
        rw [← hlen]
      have hreg : (Register lengthOf target e.2.type e.1).2 = mapInsert target e.1 e.2 := by
        rw [Register_of_free lengthOf target e.2.type e.1 hlo hhi hfree, hcreate]
      rw [hreg] at ih2 ⊢
      by_cases hi : i = e.1
      · subst hi
        have hself := bindingAt_mapInsert_self target e.1 e.2
        refine ⟨?_, ?_⟩
        · intro x hx
          rw [(bindingAt_eq_none_iff target e.1).2 hfree] at hx
          cases hx
        · intro _
          rw [ih2.1 e.2 hself, bindingAt_cons_self]
      · have hne := bindingAt_mapInsert_ne target e.1 i e.2 hi
        refine ⟨?_, ?_⟩
        · intro x hx
          exact ih2.1 x (by rw [hne]; exact hx)
        · intro hnone
          rw [ih2.2 (by rw [hne]; exact hnone),
            bindingAt_cons_ne e rest i (fun h => hi h.symm)]
    · have hreg : (Register lengthOf target e.2.type e.1).2 = target := by
        rcases Register_cases lengthOf target e.2.type e.1 with h | ⟨_, _, h, _⟩
        · rw [h]
        · exact absurd h hfree
      rw [hreg] at ih2 ⊢
      refine ⟨ih2.1, ?_⟩
      intro hnone
      have hi : e.1 ≠ i := by
        intro h
        rw [← h] at hnone
        exact hfree ((bindingAt_eq_none_iff target e.1).1 hnone)
      rw [ih2.2 hnone, bindingAt_cons_ne e rest i hi]

/-! ## Exact layout arithmetic -/

theorem payloadSum_le_of_Invariant (lengthOf : RTPExtensionType → Nat) (m : ExtensionMap)
    (hinv : Invariant lengthOf m) (hbyte : ∀ e ∈ m, e.2.length < 256) :
    payloadSum m ≤ 14 * 255 := by
  have h1 := payloadSum_le m hbyte
  have h2 := length_le_of_Invariant lengthOf m hinv
  omega

theorem GetTotalLengthInBytes_exact (oneByteHeaderLength : Nat) (m : ExtensionMap)
    (hno : oneByteHeaderLength + payloadSum m < 65536) :
    GetTotalLengthInBytes oneByteHeaderLength m
      = if payloadSum m = 0 then 0 else oneByteHeaderLength + payloadSum m := by
  have hloop := totalLengthLoop_eq m 0 (by omega)
  unfold GetTotalLengthInBytes
  simp only [hloop, Nat.zero_add]
  by_cases h : payloadSum m = 0
  · rw [if_neg (by omega), if_pos h, h]
  · rw [if_pos (by omega), if_neg h, Nat.mod_eq_of_lt (by omega)]
    omega

theorem GetLengthUntilBlockStartInBytes_exact (oneByteHeaderLength : Nat)
    (m : ExtensionMap) (k : RTPExtensionType) (i : Nat) (hg : GetId m k = some i)
    (hno : oneByteHeaderLength + payloadSum m < 65536) :
    GetLengthUntilBlockStartInBytes oneByteHeaderLength m k
      = ((oneByteHeaderLength + payloadSum (bindingsBefore m k) : Nat) : Int) := by
  have hle := payloadSum_bindingsBefore_le m k
  have hhm : oneByteHeaderLength % 65536 = oneByteHeaderLength :=
    Nat.mod_eq_of_lt (by omega)
  unfold GetLengthUntilBlockStartInBytes
  simp only [hg, hhm]
  rw [lengthUntilLoop_eq m k _ (by omega)]

theorem payloadSum_at_GetId (m : ExtensionMap) (hasc : Ascending m)
    (k : RTPExtensionType) (i : Nat) (x : HeaderExtension)
    (hg : GetId m k = some i) (hx : (i, x) ∈ m) :
    ∃ rest, mapFind m i = (i, x) :: rest ∧
      payloadSum m = payloadSum (bindingsBefore m k) + x.length + payloadSum rest := by
  induction m with
  | nil => simp at hx
  | cons e es ih =>
    rw [Ascending_cons] at hasc
    by_cases hk : e.2.type = k
    · simp only [GetId, hk, if_true, Option.some.injEq] at hg
      have he : e = (i, x) := by
        rcases List.mem_cons.1 hx with h | h
        · exact h.symm
        · have := hasc.1 _ h
          simp only at this
          omega
      refine ⟨es, ?_, ?_⟩
      · simp [mapFind, hg, he]
      · simp only [bindingsBefore, hk, if_true, payloadSum_cons]
        rw [he]
        simp [payloadSum]
    · simp only [GetId, hk, if_false] at hg
      obtain ⟨x2, hx2, _⟩ := GetId_some_mem es k i hg
      have hlt : e.1 < i := hasc.1 _ hx2
      have hx3 : (i, x) ∈ es := by
        rcases List.mem_cons.1 hx with h | h
        · rw [← h] at hlt; simp only at hlt; omega
        · exact h
      obtain ⟨rest, hf, hsum⟩ := ih hasc.2 hg hx3
      refine ⟨rest, ?_, ?_⟩
      · have hne : ¬ e.1 = i := by omega
        simp only [mapFind, hne, if_false]
        exact hf
      · simp only [bindingsBefore, hk, if_false, payloadSum_cons]
        omega

theorem rest_nil_iff_highest (m : ExtensionMap) (hasc : Ascending m) (i : Nat)
    (e : Nat × HeaderExtension) (rest : ExtensionMap) (hf : mapFind m i = e :: rest) :
    rest = [] ↔ ∀ j y, (j, y) ∈ m → j ≤ i := by
  obtain ⟨pre, hm, he⟩ := mapFind_split m i e rest hf
  have hasc2 := hasc
  unfold Ascending at hasc2
  rw [hm, List.pairwise_append, List.pairwise_cons] at hasc2
  obtain ⟨_, ⟨hrest, _⟩, hpre⟩ := hasc2
  constructor
  · intro hnil j y hy
    rw [hm, hnil] at hy
    rcases List.mem_append.1 hy with h | h
    · have := hpre _ h e (List.mem_cons_self _ _)
      simp only at this
      omega
    · rcases List.mem_cons.1 h with h | h
      · rw [← h] at he; simp only at he; omega
      · cases h
  · intro hmax
    cases rest with
    | nil => rfl
    | cons r rs =>
      exfalso
      have h1 := hrest r (List.mem_cons_self _ _)
      have h2 := hmax r.1 r.2 (by
        rw [hm]
        exact List.mem_append_right _
          (List.mem_cons_of_mem _ (List.mem_cons_self _ _)))
      omega

theorem payloadSum_eq_zero_iff (m : ExtensionMap) (hpos : ∀ e ∈ m, 1 ≤ e.2.length) :
    payloadSum m = 0 ↔ m = [] := by
  cases m with
  | nil => simp [payloadSum]
  | cons e es =>
    have := hpos e (List.mem_cons_self _ _)
    rw [payloadSum_cons]
    simp only [reduceCtorEq, iff_false]
    omega

theorem Next_of_last (m : ExtensionMap) (hasc : Ascending m) (k : RTPExtensionType)
    (i : Nat) (hg : GetId m k = some i) (hmax : ∀ j y, (j, y) ∈ m → j ≤ i) :
    Next m k = kRtpExtensionNone := by
  rcases Next_cases m hasc k i hg with ⟨_, h⟩ | ⟨j, y, hy, hlt, _, _⟩
  · exact h
  · have := hmax j y hy
    omega

theorem Next_of_successor (m : ExtensionMap) (hasc : Ascending m)
    (k : RTPExtensionType) (i j : Nat) (y : HeaderExtension)
    (hg : GetId m k = some i) (hy : (j, y) ∈ m) (hlt : i < j)
    (hleast : ∀ j2 y2, (j2, y2) ∈ m → i < j2 → j ≤ j2) : Next m k = y.type := by
  rcases Next_cases m hasc k i hg with ⟨hmax, _⟩ | ⟨j2, y2, hy2, hlt2, hleast2, h⟩
  · have := hmax j y hy
    omega
  · have h1 := hleast j2 y2 hy2 hlt2
    have h2 := hleast2 j y hy hlt
    have hj : j2 = j := by omega
    subst hj
    have hb1 := (bindingAt_eq_some_iff m hasc j2 y).2 hy
    have hb2 := (bindingAt_eq_some_iff m hasc j2 y2).2 hy2
    rw [hb1] at hb2
    rw [h, ← Option.some.inj hb2]

/-! ## Registration -/

/-- C1: `Register(k, i)` returns `-1` exactly when `i` is outside `[1, 14]` or `i`
is already bound, and `0` exactly in the remaining case; it fails for `i = 0`,
`i = 15` and `i = 255`; the status code does not depend on the kind. -/
theorem Register_status (lengthOf : RTPExtensionType → Nat) (m : ExtensionMap)
    (k : RTPExtensionType) (i : Nat) :
    ((Register lengthOf m k i).1 = -1 ↔ (i < 1 ∨ 14 < i ∨ ∃ x, (i, x) ∈ m)) ∧
    ((Register lengthOf m k i).1 = 0 ↔ (1 ≤ i ∧ i ≤ 14 ∧ ∀ x, (i, x) ∉ m)) ∧
    (Register lengthOf m k 0).1 = -1 ∧
    (Register lengthOf m k 15).1 = -1 ∧
    (Register lengthOf m k 255).1 = -1 ∧
    (∀ k2, (Register lengthOf m k2 i).1 = (Register lengthOf m k i).1) := by
  have key : ∀ k', ((Register lengthOf m k' i).1 = -1 ∧
        (i < 1 ∨ 14 < i ∨ ∃ x, (i, x) ∈ m)) ∨
      ((Register lengthOf m k' i).1 = 0 ∧ 1 ≤ i ∧ i ≤ 14 ∧ ∀ x, (i, x) ∉ m) := by
    intro k'
    unfold Register
    by_cases hr : i < 1 ∨ i > 14
    · left
      refine ⟨by rw [if_pos hr], ?_⟩
      rcases hr with h | h
      · exact Or.inl h
      · exact Or.inr (Or.inl h)
    · have hr1 : ¬ i < 1 := fun h => hr (Or.inl h)
      have hr2 : ¬ 14 < i := fun h => hr (Or.inr h)
      simp only [hr, if_false]
      have hf := mapFind_eq_nil_iff m i
      split
      · rename_i heq
        left
        refine ⟨rfl, Or.inr (Or.inr ?_)⟩
        by_contra hne
        push_neg at hne
        rw [hf.2 hne] at heq
        cases heq
      · rename_i heq
        right
        exact ⟨rfl, by omega, by omega, hf.1 heq⟩
  refine ⟨?_, ?_, ?_, ?_, ?_, ?_⟩
  · rcases key k with ⟨h1, h2⟩ | ⟨h1, h2, h3, h4⟩
    · exact ⟨fun _ => h2, fun _ => h1⟩
    · rw [h1]
      constructor
      · intro h; cases h
      · rintro (h | h | ⟨x, hx⟩)
        · omega
        · omega
        · exact absurd hx (h4 x)
  · rcases key k with ⟨h1, h2⟩ | ⟨h1, h2, h3, h4⟩
    · rw [h1]
      constructor
      · intro h; cases h
      · rintro ⟨h3, h4, h5⟩
        rcases h2 with h | h | ⟨x, hx⟩
        · omega
        · omega
        · exact absurd hx (h5 x)
    · simp only [h1, true_iff]
      exact ⟨h2, h3, h4⟩
  · simp [Register]
  · simp [Register]
  · simp [Register]
  · intro k2
    rcases key k with ⟨h1, h2⟩ | ⟨h1, h2, h3, h4⟩ <;>
      rcases key k2 with ⟨g1, g2⟩ | ⟨g1, g2, g3, g4⟩
    · rw [h1, g1]
    · exfalso
      rcases h2 with h | h | ⟨x, hx⟩
      · omega
      · omega
      · exact g4 x hx
    · exfalso
      rcases g2 with h | h | ⟨x, hx⟩
      · omega
      · omega
      · exact h4 x hx
    · rw [h1, g1]

/-- C2: when `i` in `[1, 14]` is unbound, `Register(k, i)` succeeds and a following
`Register(k2, i)` fails and leaves the registry exactly as the first call left it
(`GetType(i)` is still `k`, `Size()` and every binding are the same); moreover every
failing `Register` leaves the registry unchanged. -/
theorem Register_twice (lengthOf : RTPExtensionType → Nat) (m : ExtensionMap)
    (k k2 : RTPExtensionType) (i : Nat)
    (hlo : 1 ≤ i) (hhi : i ≤ 14) (hfree : ∀ x, (i, x) ∉ m) :
    (Register lengthOf m k i).1 = 0 ∧
    (Register lengthOf (Register lengthOf m k i).2 k2 i).1 = -1 ∧
    (Register lengthOf (Register lengthOf m k i).2 k2 i).2 = (Register lengthOf m k i).2 ∧
    GetType (Register lengthOf (Register lengthOf m k i).2 k2 i).2 i = some k ∧
    Size (Register lengthOf (Register lengthOf m k i).2 k2 i).2
      = Size (Register lengthOf m k i).2 ∧
    (∀ j, bindingAt (Register lengthOf (Register lengthOf m k i).2 k2 i).2 j
      = bindingAt (Register lengthOf m k i).2 j) ∧
    (∀ (m1 : ExtensionMap) (k1 : RTPExtensionType) (i1 : Nat),
      (Register lengthOf m1 k1 i1).1 = -1 → (Register lengthOf m1 k1 i1).2 = m1) := by
  have h1 : (Register lengthOf m k i).1 = 0 := by
    rw [Register_of_free lengthOf m k i hlo hhi ((mapFind_eq_nil_iff m i).2 hfree)]
  obtain ⟨_, _, _, hst⟩ := Register_success_state lengthOf m k i h1
  have hb : bindingAt (Register lengthOf m k i).2 i
      = some (HeaderExtension.create lengthOf k) := by
    rw [hst]; exact bindingAt_mapInsert_self m i _
  have hne : mapFind (Register lengthOf m k i).2 i ≠ [] := by
    intro h
    unfold bindingAt at hb
    rw [h] at hb
    cases hb
  have h2 : (Register lengthOf (Register lengthOf m k i).2 k2 i).1 = -1 := by
    rcases Register_cases lengthOf (Register lengthOf m k i).2 k2 i with h | ⟨_, _, h, _⟩
    · rw [h]
    · exact absurd h hne
  have h3 := Register_failure_state lengthOf _ k2 i h2
  refine ⟨h1, h2, h3, ?_, ?_, ?_, ?_⟩
  · rw [h3, GetType_eq, hb]; rfl
  · rw [h3]
  · intro j; rw [h3]
  · intro m1 k1 i1 h; exact Register_failure_state lengthOf m1 k1 i1 h

/-- C3: after a successful `Register(k, i)`, `GetType(i)` returns `k`, the binding at
`i` carries payload length `lengthOf k`, `Size()` has grown by one, and the binding
at every identifier other than `i` is what it was before. -/
theorem Register_success_effect (lengthOf : RTPExtensionType → Nat) (m : ExtensionMap)
    (k : RTPExtensionType) (i : Nat) (hok : (Register lengthOf m k i).1 = 0) :
    GetType (Register lengthOf m k i).2 i = some k ∧
    bindingAt (Register lengthOf m k i).2 i = some { type := k, length := lengthOf k } ∧
    Size (Register lengthOf m k i).2 = Size m + 1 ∧
    (∀ j, j ≠ i → bindingAt (Register lengthOf m k i).2 j = bindingAt m j) := by
  obtain ⟨_, _, hnil, hst⟩ := Register_success_state lengthOf m k i hok
  have hb : bindingAt (Register lengthOf m k i).2 i
      = some (HeaderExtension.create lengthOf k) := by
    rw [hst]; exact bindingAt_mapInsert_self m i _
  refine ⟨?_, hb, ?_, ?_⟩
  · rw [GetType_eq, hb]; rfl
  · rw [hst]
    unfold Size
    rw [length_mapInsert m i _ hnil]
    push_cast
    rfl
  · intro j hj
    rw [hst]
    exact bindingAt_mapInsert_ne m i j _ hj

/-- Witness for C2: identifier 3 registered twice in the empty registry. -/
theorem Register_twice_witness :
    (Register (fun _ => 1) [] 1 3).1 = 0 ∧
    (Register (fun _ => 1) (Register (fun _ => 1) [] 1 3).2 2 3).1 = -1 ∧
    (Register (fun _ => 1) (Register (fun _ => 1) [] 1 3).2 2 3).2
      = (Register (fun _ => 1) [] 1 3).2 :=
  have h := Register_twice (fun _ => 1) [] 1 2 3 (by decide) (by decide) (by simp)
  ⟨h.1, h.2.1, h.2.2.1⟩

/-- Witness for C3: kind 7 registered under identifier 5 next to a binding at 2. -/
theorem Register_success_effect_witness :
    (Register (fun _ => 4) [(2, { type := 1, length := 4 })] 7 5).1 = 0 ∧
    GetType (Register (fun _ => 4) [(2, { type := 1, length := 4 })] 7 5).2 5 = some 7 ∧
    Size (Register (fun _ => 4) [(2, { type := 1, length := 4 })] 7 5).2 = 2 :=
  have h := Register_success_effect (fun _ => 4) [(2, { type := 1, length := 4 })] 7 5
    (by decide)
  ⟨by decide, h.1, h.2.2.1⟩

/-! ## Lookup by kind and deregistration -/

/-- C4: `GetId(k)` reports not-found exactly when no binding has kind `k`; otherwise
it returns the smallest identifier whose binding has kind `k`.  With `k` registered
at 3 and again at 7 in the empty registry, `GetId(k)` returns 3. -/
theorem GetId_spec (lengthOf : RTPExtensionType → Nat) (m : ExtensionMap)
    (k : RTPExtensionType) (hasc : Ascending m) :
    (GetId m k = none ↔ ∀ j x, (j, x) ∈ m → x.type ≠ k) ∧
    (∀ i, GetId m k = some i ↔
      ((∃ x, (i, x) ∈ m ∧ x.type = k) ∧ ∀ j y, (j, y) ∈ m → y.type = k → i ≤ j)) ∧
    (Register lengthOf [] k 3).1 = 0 ∧
    (Register lengthOf (Register lengthOf [] k 3).2 k 7).1 = 0 ∧
    GetId (Register lengthOf (Register lengthOf [] k 3).2 k 7).2 k = some 3 := by
  refine ⟨GetId_eq_none_iff m k, ?_, ?_, ?_, ?_⟩
  · intro i
    constructor
    · intro h
      exact ⟨GetId_some_mem m k i h, GetId_some_le m hasc k i h⟩
    · rintro ⟨⟨x, hx, hk⟩, hleast⟩
      exact GetId_of_least m hasc k i x hx hk hleast
  · simp [Register, mapFind]
  · simp [Register, mapFind, mapInsert]
  · simp [Register, mapFind, mapInsert, GetId, HeaderExtension.create]

/-- C5: `Deregister(k)` fails exactly when no binding has kind `k`, and then leaves
the registry unchanged; when it succeeds it removes exactly the binding at the
smallest identifier bound to `k`: that identifier becomes unbound, `Size()` drops by
one and the binding at every other identifier is unchanged. -/
theorem Deregister_spec (m : ExtensionMap) (k : RTPExtensionType) (hasc : Ascending m) :
    ((Deregister m k).1 = -1 ↔ ∀ j x, (j, x) ∈ m → x.type ≠ k) ∧
    ((Deregister m k).1 = 0 ↔ ∃ j x, (j, x) ∈ m ∧ x.type = k) ∧
    ((Deregister m k).1 = -1 → (Deregister m k).2 = m) ∧
    (∀ i x, (i, x) ∈ m → x.type = k → (∀ j y, (j, y) ∈ m → y.type = k → i ≤ j) →
      (Deregister m k).1 = 0 ∧
      List.Perm m ((i, x) :: (Deregister m k).2) ∧
      bindingAt (Deregister m k).2 i = none ∧
      Size (Deregister m k).2 = Size m - 1 ∧
      (∀ j, j ≠ i → bindingAt (Deregister m k).2 j = bindingAt m j)) := by
  have hnone := Deregister_of_GetId_none m k
  have hsome := Deregister_of_GetId_some m k
  refine ⟨?_, ?_, ?_, ?_⟩
  · rw [← GetId_eq_none_iff]
    cases hg : GetId m k with
    | none => rw [hnone hg]; simp
    | some i => rw [hsome i hg]; simp
  · cases hg : GetId m k with
    | none =>
      rw [hnone hg]
      have := (GetId_eq_none_iff m k).1 hg
      constructor
      · intro h; cases h
      · rintro ⟨j, x, hx, hk⟩; exact absurd hk (this j x hx)
    | some i =>
      rw [hsome i hg]
      obtain ⟨x, hx, hk⟩ := GetId_some_mem m k i hg
      simp only [true_iff]
      exact ⟨i, x, hx, hk⟩
  · cases hg : GetId m k with
    | none => rw [hnone hg]; simp
    | some i => rw [hsome i hg]; intro h; cases h
  · intro i x hx hk hleast
    have hg := GetId_of_least m hasc k i x hx hk hleast
    rw [hsome i hg]
    refine ⟨rfl, perm_mapErase m hasc i x hx, bindingAt_mapErase_self m hasc i, ?_, ?_⟩
    · have := length_mapErase m i (GetId_some_mapFind m k i hg)
      unfold Size
      simp only
      omega
    · intro j hj
      exact bindingAt_mapErase_ne m i j hj

/-- Witness for C4: kinds 5, 9, 5 bound at identifiers 2, 4, 6; `GetId(5)` is 2. -/
theorem GetId_spec_witness :
    Ascending [(2, { type := 5, length := 1 }), (4, { type := 9, length := 1 }),
      (6, { type := 5, length := 1 })] ∧
    GetId [(2, { type := 5, length := 1 }), (4, { type := 9, length := 1 }),
      (6, { type := 5, length := 1 })] 5 = some 2 ∧
    GetId (Register (fun _ => 1) (Register (fun _ => 1) [] 5 3).2 5 7).2 5 = some 3 :=
  have h := GetId_spec (fun _ => 1) [(2, { type := 5, length := 1 }),
    (4, { type := 9, length := 1 }), (6, { type := 5, length := 1 })] 5 (by decide)
  ⟨by decide, by decide, h.2.2.2.2⟩

/-- Witness for C5: kinds 5, 9, 5 bound at identifiers 2, 4, 6; `Deregister(5)`
removes the binding at 2 only. -/
theorem Deregister_spec_witness :
    Ascending [(2, { type := 5, length := 1 }), (4, { type := 9, length := 1 }),
      (6, { type := 5, length := 1 })] ∧
    (Deregister [(2, { type := 5, length := 1 }), (4, { type := 9, length := 1 }),
      (6, { type := 5, length := 1 })] 5).1 = 0 ∧
    bindingAt (Deregister [(2, { type := 5, length := 1 }),
      (4, { type := 9, length := 1 }), (6, { type := 5, length := 1 })] 5).2 2 = none ∧
    bindingAt (Deregister [(2, { type := 5, length := 1 }),
      (4, { type := 9, length := 1 }), (6, { type := 5, length := 1 })] 5).2 6
      = some { type := 5, length := 1 } :=
  have h := (Deregister_spec [(2, { type := 5, length := 1 }),
    (4, { type := 9, length := 1 }), (6, { type := 5, length := 1 })] 5 (by decide)).2.2.2
      2 { type := 5, length := 1 } (by decide) rfl
      (by
        intro j y hy _
        simp only [List.mem_cons, Prod.mk.injEq, List.mem_singleton] at hy
        rcases hy with ⟨h, _⟩ | ⟨h, _⟩ | ⟨h, _⟩ | h
        · omega
        · omega
        · omega
        · cases h)
  ⟨by decide, h.1, h.2.2.1, by decide⟩

/-! ## Registration followed by deregistration -/

/-- C6, counterexample: kind 1 is bound at identifier 3; `Register(1, 7)` succeeds,
and after `Deregister(1)` identifier 7 is still bound to kind 1 (the binding at 3
was the one removed). -/
theorem Register_Deregister_counterexample :
    (Register (fun _ => 1) (Register (fun _ => 1) [] 1 3).2 1 7).1 = 0 ∧
    GetType (Deregister (Register (fun _ => 1)
      (Register (fun _ => 1) [] 1 3).2 1 7).2 1).2 7 = some 1 ∧
    GetType (Deregister (Register (fun _ => 1)
      (Register (fun _ => 1) [] 1 3).2 1 7).2 1).2 3 = none := by
  decide

/-- C6, amended: after a successful `Register(k, i)` followed by `Deregister(k)` the
deregistration succeeds and `Size()` is what it was before the `Register`; when no
binding of the registry has kind `k` at an identifier below `i`, `GetType(i)` reports
not-found and the registry is again what it was before the `Register`. -/
theorem Register_then_Deregister (lengthOf : RTPExtensionType → Nat) (m : ExtensionMap)
    (k : RTPExtensionType) (i : Nat) (hasc : Ascending m)
    (hok : (Register lengthOf m k i).1 = 0) :
    (Deregister (Register lengthOf m k i).2 k).1 = 0 ∧
    Size (Deregister (Register lengthOf m k i).2 k).2 = Size m ∧
    ((∀ j x, (j, x) ∈ m → x.type = k → i < j) →
      GetType (Deregister (Register lengthOf m k i).2 k).2 i = none ∧
      (Deregister (Register lengthOf m k i).2 k).2 = m) := by
  obtain ⟨_, _, hnil, hst⟩ := Register_success_state lengthOf m k i hok
  rw [hst]
  have hmem := mem_mapInsert_self m i (HeaderExtension.create lengthOf k)
  have hlen := length_mapInsert m i (HeaderExtension.create lengthOf k) hnil
  have hsome : ∃ i2, GetId (mapInsert m i (HeaderExtension.create lengthOf k)) k
      = some i2 := by
    cases hg : GetId (mapInsert m i (HeaderExtension.create lengthOf k)) k with
    | none => exact absurd rfl ((GetId_eq_none_iff _ k).1 hg i _ hmem)
    | some i2 => exact ⟨i2, rfl⟩
  obtain ⟨i2, hg⟩ := hsome
  refine ⟨?_, ?_, ?_⟩
  · rw [Deregister_of_GetId_some _ k i2 hg]
  · rw [Deregister_of_GetId_some _ k i2 hg]
    have := length_mapErase _ i2 (GetId_some_mapFind _ k i2 hg)
    unfold Size
    simp only
    omega
  · intro hlow
    have hg2 : GetId (mapInsert m i (HeaderExtension.create lengthOf k)) k = some i := by
      refine GetId_of_least _ (Ascending_mapInsert m hasc i _) k i _ hmem rfl ?_
      intro j y hy hk
      rcases mem_mapInsert_imp m i _ _ hy with h | h
      · cases h; exact Nat.le_refl _
      · exact Nat.le_of_lt (hlow j y h hk)
    rw [Deregister_of_GetId_some _ k i hg2, mapErase_mapInsert m i _ hnil]
    refine ⟨?_, rfl⟩
    unfold GetType
    rw [hnil]

/-- Witness for C6 (amended): kind 5 is bound at identifier 6 and is registered again
at identifier 2, below it; deregistering kind 5 restores the registry. -/
theorem Register_then_Deregister_witness :
    Ascending [(4, { type := 9, length := 1 }), (6, { type := 5, length := 1 })] ∧
    (Register (fun _ => 1)
      [(4, { type := 9, length := 1 }), (6, { type := 5, length := 1 })] 5 2).1 = 0 ∧
    GetType (Deregister (Register (fun _ => 1)
      [(4, { type := 9, length := 1 }), (6, { type := 5, length := 1 })] 5 2).2 5).2 2
      = none ∧
    Size (Deregister (Register (fun _ => 1)
      [(4, { type := 9, length := 1 }), (6, { type := 5, length := 1 })] 5 2).2 5).2
      = 2 :=
  have h := Register_then_Deregister (fun _ => 1)
    [(4, { type := 9, length := 1 }), (6, { type := 5, length := 1 })] 5 2
    (by decide) (by decide)
  ⟨by decide, by decide, (h.2.2 (by
      intro j x hx hk
      simp only [List.mem_cons, Prod.mk.injEq, List.mem_singleton] at hx
      rcases hx with ⟨h1, h2⟩ | ⟨h1, _⟩ | h1
      · rw [h2] at hk; cases hk
      · omega
      · cases h1)).1, h.2.1⟩

/-! ## Layout queries -/

/-- C7: for a registry whose payload lengths are those of the external table (at
least 1 byte each), `GetTotalLengthInBytes()` is 0 when the registry is empty and is
the header overhead plus the sum of the payload lengths of all bindings when at least
one binding exists; after registering a single kind of payload length `L` into the
empty registry it is the header overhead plus `L`. -/
theorem GetTotalLengthInBytes_spec (oneByteHeaderLength : Nat) (m : ExtensionMap)
    (hasc : Ascending m) (hr : InRange m) (hpos : ∀ e ∈ m, 1 ≤ e.2.length)
    (hh : oneByteHeaderLength ≤ 255) :
    GetTotalLengthInBytes oneByteHeaderLength [] = 0 ∧
    (m = [] → GetTotalLengthInBytes oneByteHeaderLength m = 0) ∧
    (m ≠ [] →
      GetTotalLengthInBytes oneByteHeaderLength m = oneByteHeaderLength + payloadSum m) ∧
    (∀ (lengthOf : RTPExtensionType → Nat) (k : RTPExtensionType) (i : Nat),
      (Register lengthOf [] k i).1 = 0 → 1 ≤ lengthOf k → lengthOf k < 256 →
      GetTotalLengthInBytes oneByteHeaderLength (Register lengthOf [] k i).2
        = oneByteHeaderLength + lengthOf k) := by
  have hb := payloadSum_bound m hasc hr
  have hexact := GetTotalLengthInBytes_exact oneByteHeaderLength m (by omega)
  have hzero := payloadSum_eq_zero_iff m hpos
  have hempty : GetTotalLengthInBytes oneByteHeaderLength [] = 0 := by
    simp [GetTotalLengthInBytes, totalLengthLoop]
  refine ⟨hempty, ?_, ?_, ?_⟩
  · intro h
    rw [h]
    exact hempty
  · intro hne
    rw [hexact, if_neg (fun h => hne (hzero.1 h))]
  · intro lengthOf k i hok h1 h2
    obtain ⟨_, _, _, hst⟩ := Register_success_state lengthOf [] k i hok
    rw [hst]
    simp only [mapInsert, GetTotalLengthInBytes, totalLengthLoop, HeaderExtension.create,
      Nat.zero_add]
    rw [Nat.mod_eq_of_lt (by omega : lengthOf k < 65536), if_pos (by omega),
      Nat.mod_eq_of_lt (by omega)]
    omega

/-- Witness for C7: kinds of payload lengths 1 and 4 at identifiers 1 and 2 with
header overhead 4 give a total of 9 bytes. -/
theorem GetTotalLengthInBytes_spec_witness :
    Ascending [(1, { type := 1, length := 1 }), (2, { type := 2, length := 4 })] ∧
    InRange [(1, { type := 1, length := 1 }), (2, { type := 2, length := 4 })] ∧
    GetTotalLengthInBytes 4
      [(1, { type := 1, length := 1 }), (2, { type := 2, length := 4 })] = 4 + 5 :=
  have h := GetTotalLengthInBytes_spec 4
    [(1, { type := 1, length := 1 }), (2, { type := 2, length := 4 })]
    (by decide) (by decide) (by decide) (by decide)
  ⟨by decide, by decide, h.2.2.1 (by decide)⟩

/-- C8: `GetLengthUntilBlockStartInBytes(k)` returns `-1` exactly when no binding has
kind `k`; otherwise it returns the header overhead plus the sum of the payload lengths
of exactly the bindings whose identifier is strictly below `GetId(k)`.  With kind `A`
(length 1) at identifier 1 and kind `B` (length 4) at identifier 2 the offsets of `A`
and `B` are the header overhead and the header overhead plus 1. -/
theorem GetLengthUntilBlockStartInBytes_spec (oneByteHeaderLength : Nat)
    (m : ExtensionMap) (k : RTPExtensionType)
    (hasc : Ascending m) (hr : InRange m) (hh : oneByteHeaderLength ≤ 255) :
    (GetLengthUntilBlockStartInBytes oneByteHeaderLength m k = -1 ↔
      ∀ j x, (j, x) ∈ m → x.type ≠ k) ∧
    (∀ i, GetId m k = some i →
      GetLengthUntilBlockStartInBytes oneByteHeaderLength m k
        = ((oneByteHeaderLength
            + payloadSum (m.filter (fun e => decide (e.1 < i))) : Nat) : Int)) ∧
    (∀ (lengthOf : RTPExtensionType → Nat) (A B : RTPExtensionType),
      lengthOf A = 1 → lengthOf B = 4 →
      (Register lengthOf [] A 1).1 = 0 ∧
      (Register lengthOf (Register lengthOf [] A 1).2 B 2).1 = 0 ∧
      GetLengthUntilBlockStartInBytes oneByteHeaderLength
        (Register lengthOf (Register lengthOf [] A 1).2 B 2).2 A
          = (oneByteHeaderLength : Int) ∧
      GetLengthUntilBlockStartInBytes oneByteHeaderLength
        (Register lengthOf (Register lengthOf [] A 1).2 B 2).2 B
          = (oneByteHeaderLength : Int) + 1) := by
  have hhm : oneByteHeaderLength % 65536 = oneByteHeaderLength :=
    Nat.mod_eq_of_lt (by omega)
  refine ⟨?_, ?_, ?_⟩
  · rw [← GetId_eq_none_iff]
    unfold GetLengthUntilBlockStartInBytes
    cases hg : GetId m k with
    | none => simp
    | some i =>
      simp only [reduceCtorEq, iff_false]
  · intro i hg
    have hb := payloadSum_bound m hasc hr
    have hle := payloadSum_bindingsBefore_le m k
    unfold GetLengthUntilBlockStartInBytes
    simp only [hg, hhm]
    rw [lengthUntilLoop_eq m k _ (by omega), bindingsBefore_eq_filter_lt m hasc k i hg]
  · intro lengthOf A B hA hB
    have hAB : ¬ A = B := by
      intro h; rw [h, hB] at hA; cases hA
    have hst : (Register lengthOf (Register lengthOf [] A 1).2 B 2).2
        = [(1, { type := A, length := 1 }), (2, { type := B, length := 4 })] := by
      simp [Register, mapFind, mapInsert, HeaderExtension.create, hA, hB]
    refine ⟨by simp [Register, mapFind], by simp [Register, mapFind, mapInsert], ?_, ?_⟩
    · rw [hst]
      simp [GetLengthUntilBlockStartInBytes, GetId, lengthUntilLoop, hhm]
    · rw [hst]
      have h1 : (oneByteHeaderLength + 1) % 65536 = oneByteHeaderLength + 1 :=
        Nat.mod_eq_of_lt (by omega)
      simp [GetLengthUntilBlockStartInBytes, GetId, lengthUntilLoop, hhm, hAB, h1]

/-- Witness for C8: kinds 1, 2, 3 with payload lengths 1, 4, 3 at identifiers 1, 2, 5
and header overhead 4; the payload of kind 3 starts at offset 4 + 1 + 4. -/
theorem GetLengthUntilBlockStartInBytes_spec_witness :
    Ascending [(1, { type := 1, length := 1 }), (2, { type := 2, length := 4 }),
      (5, { type := 3, length := 3 })] ∧
    InRange [(1, { type := 1, length := 1 }), (2, { type := 2, length := 4 }),
      (5, { type := 3, length := 3 })] ∧
    GetLengthUntilBlockStartInBytes 4 [(1, { type := 1, length := 1 }),
      (2, { type := 2, length := 4 }), (5, { type := 3, length := 3 })] 3 = 9 :=
  have h := GetLengthUntilBlockStartInBytes_spec 4 [(1, { type := 1, length := 1 }),
    (2, { type := 2, length := 4 }), (5, { type := 3, length := 3 })] 3
    (by decide) (by decide) (by decide)
  ⟨by decide, by decide, h.2.1 5 (by decide)⟩

/-! ## Walking the registry with `First` and `Next` -/

/-- C9, counterexample: kind 1 is registered at identifier 3 and again at identifier
7 (both calls succeed, `Size()` is 2).  The walk yields kind 1 three times in a row:
`Next(1)` resolves kind 1 to identifier 3 every time, so the third result is not
`kRtpExtensionNone`. -/
theorem walk_counterexample :
    (registerAll (fun _ => 1) [] [(1, 3), (1, 7)]).1 = [0, 0] ∧
    Size (registerAll (fun _ => 1) [] [(1, 3), (1, 7)]).2 = 2 ∧
    walk (registerAll (fun _ => 1) [] [(1, 3), (1, 7)]).2 3 = [1, 1, 1] ∧
    walk (registerAll (fun _ => 1) [] [(1, 3), (1, 7)]).2 3
      ≠ (registerAll (fun _ => 1) [] [(1, 3), (1, 7)]).2.map (fun e => e.2.type)
          ++ [kRtpExtensionNone] := by
  decide

/-- C9, amended: for every registry built from the empty one by a sequence of
successful registrations whose kinds are pairwise distinct, the registry holds exactly
the registered (kind, identifier) pairs in ascending identifier order, and the first
`Size() + 1` results of the walk `First()`, `Next(First())`, ... are the kinds of the
bindings in that order followed by `kRtpExtensionNone` (none of the kinds before it
being `kRtpExtensionNone` when no such kind was registered).  Registrations of three
distinct kinds at identifiers 5, 2, 9 are walked in the order 2, 5, 9, then
`kRtpExtensionNone`. -/
theorem walk_of_registrations (lengthOf : RTPExtensionType → Nat)
    (regs : List (RTPExtensionType × Nat))
    (hok : ∀ c ∈ (registerAll lengthOf [] regs).1, c = 0)
    (hd : (regs.map Prod.fst).Nodup) :
    Ascending (registerAll lengthOf [] regs).2 ∧
    List.Perm ((registerAll lengthOf [] regs).2.map (fun e => (e.2.type, e.1))) regs ∧
    Size (registerAll lengthOf [] regs).2 = regs.length ∧
    walk (registerAll lengthOf [] regs).2 (regs.length + 1)
      = (registerAll lengthOf [] regs).2.map (fun e => e.2.type) ++ [kRtpExtensionNone] ∧
    ((∀ r ∈ regs, r.1 ≠ kRtpExtensionNone) →
      ∀ k ∈ (registerAll lengthOf [] regs).2.map (fun e => e.2.type),
        k ≠ kRtpExtensionNone) ∧
    (∀ a b c : RTPExtensionType, a ≠ b → a ≠ c → b ≠ c →
      (registerAll lengthOf [] [(a, 5), (b, 2), (c, 9)]).1 = [0, 0, 0] ∧
      walk (registerAll lengthOf [] [(a, 5), (b, 2), (c, 9)]).2 4
        = [b, a, c, kRtpExtensionNone]) := by
  obtain ⟨hasc, hperm⟩ := registerAll_spec lengthOf [] regs (by simp [Ascending]) hok
  rw [List.append_nil] at hperm
  have hperm2 : List.Perm ((registerAll lengthOf [] regs).2.map (fun e => (e.2.type, e.1)))
      regs := by
    have h := hperm.map (fun e : Nat × HeaderExtension => (e.2.type, e.1))
    rw [List.map_map] at h
    have hid : ((fun e : Nat × HeaderExtension => (e.2.type, e.1)) ∘
        fun r : RTPExtensionType × Nat => (r.2, HeaderExtension.create lengthOf r.1))
        = id := by
      funext r; rfl
    rw [hid, List.map_id] at h
    exact h
  have hkinds : List.Perm ((registerAll lengthOf [] regs).2.map (fun e => e.2.type))
      (regs.map Prod.fst) := by
    have h := hperm2.map Prod.fst
    rw [List.map_map] at h
    exact h
  have hlen : (registerAll lengthOf [] regs).2.length = regs.length := by
    have h := hperm2.length_eq
    rw [List.length_map] at h
    exact h
  refine ⟨hasc, hperm2, ?_, ?_, ?_, ?_⟩
  · unfold Size; rw [hlen]
  · rw [← hlen]
    exact walk_of_distinct_kinds _ hasc (hkinds.nodup_iff.2 hd)
  · intro hnone k hk
    have hk2 := hkinds.subset hk
    rw [List.mem_map] at hk2
    obtain ⟨r, hr, hrk⟩ := hk2
    rw [← hrk]
    exact hnone r hr
  · intro a b c hab hac hbc
    have hst : (registerAll lengthOf [] [(a, 5), (b, 2), (c, 9)]).2
        = [(2, HeaderExtension.create lengthOf b), (5, HeaderExtension.create lengthOf a),
            (9, HeaderExtension.create lengthOf c)] := by
      simp [registerAll, Register, mapFind, mapInsert]
    refine ⟨by simp [registerAll, Register, mapFind, mapInsert], ?_⟩
    rw [hst]
    exact walk_of_distinct_kinds _ (by simp [Ascending])
      (by simp [HeaderExtension.create, hab, hac, hbc, Ne.symm hab])

/-- Witness for C9 (amended): kinds 7, 8, 6 registered at identifiers 5, 2, 9. -/
theorem walk_of_registrations_witness :
    (registerAll (fun _ => 1) [] [(7, 5), (8, 2), (6, 9)]).1 = [0, 0, 0] ∧
    walk (registerAll (fun _ => 1) [] [(7, 5), (8, 2), (6, 9)]).2 4
      = (registerAll (fun _ => 1) [] [(7, 5), (8, 2), (6, 9)]).2.map (fun e => e.2.type)
          ++ [kRtpExtensionNone] ∧
    walk (registerAll (fun _ => 1) [] [(7, 5), (8, 2), (6, 9)]).2 4 = [8, 7, 6, 0] :=
  have h := walk_of_registrations (fun _ => 1) [(7, 5), (8, 2), (6, 9)]
    (by decide) (by decide)
  ⟨by decide, h.2.2.2.1, by decide⟩

/-! ## Copying into an empty registry -/

/-- C10: after `GetCopy` into an empty target the target holds exactly the bindings of
the source (same identifier, kind and payload length), so `Size()`, `First()`,
`Next(k)` for every kind `k` and `GetTotalLengthInBytes()` agree on both; the source is
unchanged. -/
theorem GetCopy_into_empty (lengthOf : RTPExtensionType → Nat)
    (oneByteHeaderLength : Nat) (source : ExtensionMap)
    (hinv : Invariant lengthOf source) :
    (GetCopy lengthOf source []).2 = source ∧
    (GetCopy lengthOf source []).1 = source ∧
    (∀ i, bindingAt (GetCopy lengthOf source []).2 i = bindingAt source i) ∧
    Size (GetCopy lengthOf source []).2 = Size source ∧
    First (GetCopy lengthOf source []).2 = First source ∧
    (∀ k, Next (GetCopy lengthOf source []).2 k = Next source k) ∧
    GetTotalLengthInBytes oneByteHeaderLength (GetCopy lengthOf source []).2
      = GetTotalLengthInBytes oneByteHeaderLength source := by
  have h : (GetCopy lengthOf source []).2 = source := by
    unfold GetCopy
    simp only
    rw [copyLoop_append lengthOf [] source (by simpa using hinv.1) hinv.2]
    simp
  refine ⟨h, rfl, ?_, ?_, ?_, ?_, ?_⟩
  · intro i; rw [h]
  · rw [h]
  · rw [h]
  · intro k; rw [h]
  · rw [h]

/-- Witness for C10: a registry with kinds 8, 7, 8 at identifiers 2, 5, 14 copied into
an empty target. -/
theorem GetCopy_into_empty_witness :
    Invariant (fun k => k + 1) [(2, { type := 8, length := 9 }),
      (5, { type := 7, length := 8 }), (14, { type := 8, length := 9 })] ∧
    (GetCopy (fun k => k + 1) [(2, { type := 8, length := 9 }),
      (5, { type := 7, length := 8 }), (14, { type := 8, length := 9 })] []).2
      = [(2, { type := 8, length := 9 }), (5, { type := 7, length := 8 }),
          (14, { type := 8, length := 9 })] :=
  have h := GetCopy_into_empty (fun k => k + 1) 4 [(2, { type := 8, length := 9 }),
    (5, { type := 7, length := 8 }), (14, { type := 8, length := 9 })] (by decide)
  ⟨by decide, h.1⟩

/-! ## Invariants of reachable registries -/

/-- C11: in every registry reachable from the empty one by `Register`, `Deregister`,
`GetCopy`-into and `Erase` calls, every bound identifier lies in `[1, 14]` and no
identifier is bound twice; hence `Size()` is at most 14 and `GetType(i)` reports
not-found for every `i` outside `[1, 14]`. -/
theorem Reachable_invariant (lengthOf : RTPExtensionType → Nat) (m : ExtensionMap)
    (hreach : Reachable lengthOf m) :
    (∀ i x, (i, x) ∈ m → 1 ≤ i ∧ i ≤ 14) ∧
    (m.map Prod.fst).Nodup ∧
    (∀ i x y, (i, x) ∈ m → (i, y) ∈ m → x = y) ∧
    Size m ≤ 14 ∧
    (∀ i, i < 1 ∨ 14 < i → GetType m i = none) := by
  have hinv := Invariant_of_ReachableBy lengthOf _ m hreach
  have hrange : ∀ i x, (i, x) ∈ m → 1 ≤ i ∧ i ≤ 14 := by
    intro i x hx
    have := hinv.2 (i, x) hx
    exact ⟨this.1, this.2.1⟩
  refine ⟨hrange, ?_, ?_, ?_, ?_⟩
  · have hasc := hinv.1
    unfold Ascending at hasc
    unfold List.Nodup
    rw [List.pairwise_map]
    exact hasc.imp (fun h => Nat.ne_of_lt h)
  · intro i x y hx hy
    have h1 := (bindingAt_eq_some_iff m hinv.1 i x).2 hx
    have h2 := (bindingAt_eq_some_iff m hinv.1 i y).2 hy
    rw [h1] at h2
    exact Option.some.inj h2
  · have := length_le_of_Invariant lengthOf m hinv
    unfold Size
    omega
  · intro i hi
    have hnil : mapFind m i = [] := by
      rw [mapFind_eq_nil_iff]
      intro x hx
      have := hrange i x hx
      omega
    unfold GetType
    rw [hnil]

/-- Witness for C11: the registry after `Register(7, 5)`, `Register(8, 2)`,
`Register(9, 0)` (rejected) and `Deregister(7)`. -/
theorem Reachable_invariant_witness :
    (Deregister (Register (fun _ => 1) (Register (fun _ => 1)
      (Register (fun _ => 1) [] 7 5).2 8 2).2 9 0).2 7).2
        = [(2, { type := 8, length := 1 })] ∧
    Size (Deregister (Register (fun _ => 1) (Register (fun _ => 1)
      (Register (fun _ => 1) [] 7 5).2 8 2).2 9 0).2 7).2 ≤ 14 :=
  have h := Reachable_invariant (fun _ => 1)
    (Deregister (Register (fun _ => 1) (Register (fun _ => 1)
      (Register (fun _ => 1) [] 7 5).2 8 2).2 9 0).2 7).2
    (ReachableBy.deregister _ _ (ReachableBy.register _ _ _ (ReachableBy.register _ _ _
      (ReachableBy.register _ _ _ ReachableBy.empty trivial) trivial) trivial))
  ⟨by decide, h.2.2.2.1⟩

/-- C12, counterexample: `Register(kRtpExtensionNone, 1)` on the empty registry
succeeds; the reachable registry it leaves holds the sentinel as a kind, `GetType(1)`
returns it, and `First()` returns it although the registry is not empty. -/
theorem sentinel_stored_counterexample :
    Reachable (fun _ => 1) (Register (fun _ => 1) [] kRtpExtensionNone 1).2 ∧
    (Register (fun _ => 1) [] kRtpExtensionNone 1).1 = 0 ∧
    GetType (Register (fun _ => 1) [] kRtpExtensionNone 1).2 1 = some kRtpExtensionNone ∧
    Size (Register (fun _ => 1) [] kRtpExtensionNone 1).2 = 1 ∧
    First (Register (fun _ => 1) [] kRtpExtensionNone 1).2 = kRtpExtensionNone :=
  ⟨ReachableBy.register [] kRtpExtensionNone 1 ReachableBy.empty trivial,
    by decide, by decide, by decide, by decide⟩

/-- C12, amended: in every registry reachable from the empty one by `Register` calls
whose kind is not `kRtpExtensionNone`, `Deregister` calls, `Erase` calls and
`GetCopy`-into calls from such registries, no binding has kind `kRtpExtensionNone`;
hence `GetType` never returns `kRtpExtensionNone` and `First()` returns
`kRtpExtensionNone` only for the empty registry. -/
theorem sentinel_never_stored (lengthOf : RTPExtensionType → Nat) (m : ExtensionMap)
    (hreach : ReachableBy lengthOf (fun k => k ≠ kRtpExtensionNone) m) :
    (∀ i x, (i, x) ∈ m → x.type ≠ kRtpExtensionNone) ∧
    (∀ i, GetType m i ≠ some kRtpExtensionNone) ∧
    (First m = kRtpExtensionNone ↔ m = []) := by
  have hk := kinds_of_ReachableBy lengthOf _ m hreach
  have hinv := Invariant_of_ReachableBy lengthOf _ m hreach
  refine ⟨fun i x hx => hk (i, x) hx, ?_, ?_⟩
  · intro i h
    rw [GetType_eq] at h
    cases hb : bindingAt m i with
    | none => rw [hb] at h; cases h
    | some x =>
      rw [hb] at h
      have hx := (bindingAt_eq_some_iff m hinv.1 i x).1 hb
      exact hk (i, x) hx (Option.some.inj h)
  · cases m with
    | nil => simp [First]
    | cons e es =>
      simp only [First, reduceCtorEq, iff_false]
      exact hk e (List.mem_cons_self _ _)

/-- Witness for C12 (amended): kinds 7 and 8 registered at identifiers 5 and 2. -/
theorem sentinel_never_stored_witness :
    (Register (fun _ => 1) (Register (fun _ => 1) [] 7 5).2 8 2).2
      = [(2, { type := 8, length := 1 }), (5, { type := 7, length := 1 })] ∧
    First (Register (fun _ => 1) (Register (fun _ => 1) [] 7 5).2 8 2).2 = 8 ∧
    GetType (Register (fun _ => 1) (Register (fun _ => 1) [] 7 5).2 8 2).2 5
      ≠ some kRtpExtensionNone :=
  have h := sentinel_never_stored (fun _ => 1)
    (Register (fun _ => 1) (Register (fun _ => 1) [] 7 5).2 8 2).2
    (ReachableBy.register _ 8 2 (ReachableBy.register _ 7 5 ReachableBy.empty
      (by decide)) (by decide))
  ⟨by decide, by decide, h.2.1 5⟩

/-! ## The successor query `Next` -/

/-- C13: `Next(k)` returns `kRtpExtensionNone` when `k` is not registered or when no
identifier greater than `GetId(k)` is bound; otherwise it returns the kind bound at the
smallest bound identifier strictly greater than `GetId(k)`. -/
theorem Next_spec (m : ExtensionMap) (k : RTPExtensionType) (hasc : Ascending m) :
    (GetId m k = none → Next m k = kRtpExtensionNone) ∧
    (∀ i, GetId m k = some i → (∀ j y, (j, y) ∈ m → j ≤ i) →
      Next m k = kRtpExtensionNone) ∧
    (∀ i j y, GetId m k = some i → (j, y) ∈ m → i < j →
      (∀ j2 y2, (j2, y2) ∈ m → i < j2 → j ≤ j2) → Next m k = y.type) := by
  refine ⟨?_, ?_, ?_⟩
  · intro h
    unfold Next
    rw [h]
  · intro i hg hmax
    rcases Next_cases m hasc k i hg with ⟨_, h⟩ | ⟨j, y, hy, hlt, _, _⟩
    · exact h
    · have := hmax j y hy
      omega
  · intro i j y hg hy hlt hleast
    rcases Next_cases m hasc k i hg with ⟨hmax, _⟩ | ⟨j2, y2, hy2, hlt2, hleast2, h⟩
    · have := hmax j y hy
      omega
    · have h1 := hleast j2 y2 hy2 hlt2
      have h2 := hleast2 j y hy hlt
      have hj : j2 = j := by omega
      subst hj
      have hb1 := (bindingAt_eq_some_iff m hasc j2 y).2 hy
      have hb2 := (bindingAt_eq_some_iff m hasc j2 y2).2 hy2
      rw [hb1] at hb2
      rw [h, ← Option.some.inj hb2]

/-- Witness for C13: kinds 5, 9, 5, 4 at identifiers 2, 4, 6, 8; `Next(5)` resolves
kind 5 to identifier 2 and returns the kind at identifier 4. -/
theorem Next_spec_witness :
    Ascending [(2, { type := 5, length := 1 }), (4, { type := 9, length := 1 }),
      (6, { type := 5, length := 1 }), (8, { type := 4, length := 1 })] ∧
    GetId [(2, { type := 5, length := 1 }), (4, { type := 9, length := 1 }),
      (6, { type := 5, length := 1 }), (8, { type := 4, length := 1 })] 5 = some 2 ∧
    Next [(2, { type := 5, length := 1 }), (4, { type := 9, length := 1 }),
      (6, { type := 5, length := 1 }), (8, { type := 4, length := 1 })] 5 = 9 ∧
    Next [(2, { type := 5, length := 1 }), (4, { type := 9, length := 1 }),
      (6, { type := 5, length := 1 }), (8, { type := 4, length := 1 })] 7
        = kRtpExtensionNone :=
  have h := Next_spec [(2, { type := 5, length := 1 }), (4, { type := 9, length := 1 }),
    (6, { type := 5, length := 1 }), (8, { type := 4, length := 1 })] 7 (by decide)
  ⟨by decide, by decide, by decide, h.1 (by decide)⟩

/-! ## Termination of the walk -/

/-- C14: in a registry whose bindings have pairwise distinct kinds, none of them
`kRtpExtensionNone`, the loop `for (k = First(); k != kRtpExtensionNone; k = Next(k))`
terminates: with fuel for `Size() + 1` tests or more it visits exactly `Size()` kinds,
the kinds of the bindings in ascending identifier order, and the next result is
`kRtpExtensionNone`; every order of successful registrations of the same bindings
builds the same registry, hence the same sequence. -/
theorem walk_terminates (lengthOf : RTPExtensionType → Nat) (m : ExtensionMap)
    (hasc : Ascending m) (hd : (m.map (fun e => e.2.type)).Nodup)
    (hn : ∀ e ∈ m, e.2.type ≠ kRtpExtensionNone) :
    (∀ fuel, m.length + 1 ≤ fuel →
      walkToEnd m fuel (First m) = some (m.map (fun e => e.2.type))) ∧
    ((m.map (fun e => e.2.type)).length : Int) = Size m ∧
    walk m (m.length + 1) = m.map (fun e => e.2.type) ++ [kRtpExtensionNone] ∧
    (∀ regs : List (RTPExtensionType × Nat),
      (∀ c ∈ (registerAll lengthOf [] regs).1, c = 0) →
      List.Perm (regs.map (fun r => (r.2, HeaderExtension.create lengthOf r.1))) m →
      (registerAll lengthOf [] regs).2 = m) := by
  have hd2 : List.Pairwise (fun a b : Nat × HeaderExtension => a.2.type ≠ b.2.type) m := by
    unfold List.Nodup at hd
    rw [List.pairwise_map] at hd
    exact hd
  refine ⟨?_, ?_, walk_of_distinct_kinds m hasc hd, ?_⟩
  · intro fuel hfuel
    have := walkToEnd_suffix [] m (by simpa using hasc) (by simpa using hd2) hn fuel hfuel
    simpa using this
  · simp [Size]
  · intro regs hok hperm
    obtain ⟨hasc2, hperm2⟩ := registerAll_spec lengthOf [] regs (by simp [Ascending]) hok
    rw [List.append_nil] at hperm2
    exact Ascending_perm_eq _ m hasc2 hasc (hperm2.trans hperm)

/-- Witness for C14: kinds 8, 7, 6 at identifiers 2, 5, 9, registered in the order
5, 9, 2. -/
theorem walk_terminates_witness :
    Ascending [(2, { type := 8, length := 1 }), (5, { type := 7, length := 1 }),
      (9, { type := 6, length := 1 })] ∧
    walkToEnd [(2, { type := 8, length := 1 }), (5, { type := 7, length := 1 }),
      (9, { type := 6, length := 1 })] 4
      (First [(2, { type := 8, length := 1 }), (5, { type := 7, length := 1 }),
        (9, { type := 6, length := 1 })]) = some [8, 7, 6] ∧
    (registerAll (fun _ => 1) [] [(7, 5), (6, 9), (8, 2)]).2
      = [(2, { type := 8, length := 1 }), (5, { type := 7, length := 1 }),
          (9, { type := 6, length := 1 })] :=
  have h := walk_terminates (fun _ => 1) [(2, { type := 8, length := 1 }),
    (5, { type := 7, length := 1 }), (9, { type := 6, length := 1 })]
    (by decide) (by decide) (by decide)
  ⟨by decide, h.1 4 (by decide), by decide⟩

/-! ## Copying into an arbitrary target -/

/-- C15: after `GetCopy` into any target, at every identifier `i` the target keeps the
binding it already had, if it had one (the binding of the source at `i` is dropped),
and otherwise holds the binding of the source at `i` (none if the source has none); the
source is unchanged. -/
theorem GetCopy_frame (lengthOf : RTPExtensionType → Nat) (source target : ExtensionMap)
    (hinv : Invariant lengthOf source) :
    (GetCopy lengthOf source target).1 = source ∧
    (∀ i x, bindingAt target i = some x →
      bindingAt (GetCopy lengthOf source target).2 i = some x) ∧
    (∀ i, bindingAt target i = none →
      bindingAt (GetCopy lengthOf source target).2 i = bindingAt source i) := by
  refine ⟨rfl, ?_, ?_⟩
  · intro i x hx
    exact (copyLoop_bindingAt lengthOf source target hinv.2 i).1 x hx
  · intro i hnone
    exact (copyLoop_bindingAt lengthOf source target hinv.2 i).2 hnone

/-- Witness for C15: a source with kinds 8, 7 at identifiers 2, 5 copied into a target
that already binds kind 9 at identifier 5. -/
theorem GetCopy_frame_witness :
    Invariant (fun _ => 1) [(2, { type := 8, length := 1 }),
      (5, { type := 7, length := 1 })] ∧
    bindingAt (GetCopy (fun _ => 1) [(2, { type := 8, length := 1 }),
      (5, { type := 7, length := 1 })] [(5, { type := 9, length := 1 })]).2 5
        = some { type := 9, length := 1 } ∧
    bindingAt (GetCopy (fun _ => 1) [(2, { type := 8, length := 1 }),
      (5, { type := 7, length := 1 })] [(5, { type := 9, length := 1 })]).2 2
        = some { type := 8, length := 1 } :=
  have h := GetCopy_frame (fun _ => 1) [(2, { type := 8, length := 1 }),
    (5, { type := 7, length := 1 })] [(5, { type := 9, length := 1 })] (by decide)
  ⟨by decide, h.2.1 5 _ (by decide), by decide⟩

/-! ## Consistency of the two layout queries -/

/-- C16: in a reachable registry whose bindings all have a payload length of at least
1, for a registered kind `k` with `i = GetId(k)` the offset
`GetLengthUntilBlockStartInBytes(k)` plus the payload length of the binding at `i` is
at most `GetTotalLengthInBytes()`, with equality exactly when `i` is the highest bound
identifier. -/
theorem offset_within_block (lengthOf : RTPExtensionType → Nat)
    (oneByteHeaderLength : Nat) (m : ExtensionMap) (k : RTPExtensionType) (i : Nat)
    (x : HeaderExtension) (hreach : Reachable lengthOf m)
    (hlen : ∀ e ∈ m, 1 ≤ e.2.length ∧ e.2.length < 256)
    (hh : oneByteHeaderLength + 14 * 255 < 65536)
    (hg : GetId m k = some i) (hb : bindingAt m i = some x) :
    GetLengthUntilBlockStartInBytes oneByteHeaderLength m k + (x.length : Int)
      ≤ (GetTotalLengthInBytes oneByteHeaderLength m : Int) ∧
    (GetLengthUntilBlockStartInBytes oneByteHeaderLength m k + (x.length : Int)
      = (GetTotalLengthInBytes oneByteHeaderLength m : Int) ↔
      ∀ j y, (j, y) ∈ m → j ≤ i) := by
  have hinv := Invariant_of_ReachableBy lengthOf _ m hreach
  have hsum := payloadSum_le_of_Invariant lengthOf m hinv (fun e he => (hlen e he).2)
  have hx := (bindingAt_eq_some_iff m hinv.1 i x).1 hb
  obtain ⟨rest, hf, hsplit⟩ := payloadSum_at_GetId m hinv.1 k i x hg hx
  have hoff := GetLengthUntilBlockStartInBytes_exact oneByteHeaderLength m k i hg
    (by omega)
  have hx1 := (hlen (i, x) hx).1
  simp only at hx1
  have htot := GetTotalLengthInBytes_exact oneByteHeaderLength m (by omega)
  rw [if_neg (by omega)] at htot
  have hrest : ∀ e ∈ rest, 1 ≤ e.2.length := by
    intro e he
    obtain ⟨pre, hm, _⟩ := mapFind_split m i (i, x) rest hf
    refine (hlen e ?_).1
    rw [hm]
    exact List.mem_append_right _ (List.mem_cons_of_mem _ he)
  have hzero := payloadSum_eq_zero_iff rest hrest
  have hhigh := rest_nil_iff_highest m hinv.1 i (i, x) rest hf
  rw [hoff, htot]
  refine ⟨by omega, ?_⟩
  rw [← hhigh, ← hzero]
  constructor
  · intro h; omega
  · intro h; omega

/-- Witness for C16: kinds 1, 2 with payload lengths 1, 4 at identifiers 1, 2 and
header overhead 4; the payload of kind 2 ends where the block ends. -/
theorem offset_within_block_witness :
    GetId (Register (fun k => 3 * k - 2) (Register (fun k => 3 * k - 2) [] 1 1).2 2 2).2 2
      = some 2 ∧
    GetLengthUntilBlockStartInBytes 4
      (Register (fun k => 3 * k - 2) (Register (fun k => 3 * k - 2) [] 1 1).2 2 2).2 2
        + ((4 : Nat) : Int)
      ≤ (GetTotalLengthInBytes 4
        (Register (fun k => 3 * k - 2) (Register (fun k => 3 * k - 2) [] 1 1).2 2 2).2
          : Int) :=
  have h := offset_within_block (fun k => 3 * k - 2) 4
    (Register (fun k => 3 * k - 2) (Register (fun k => 3 * k - 2) [] 1 1).2 2 2).2 2 2
    { type := 2, length := 4 }
    (ReachableBy.register _ 2 2 (ReachableBy.register _ 1 1 ReachableBy.empty trivial)
      trivial)
    (by decide) (by decide) (by decide) (by decide)
  ⟨by decide, h.1⟩

/-! ## No wrap-around in the 16-bit accumulators -/

/-- C17: in a reachable registry (at most 14 bindings, every payload length below 256)
the 16-bit accumulations of `GetTotalLengthInBytes` and
`GetLengthUntilBlockStartInBytes` do not wrap: both results are the exact sums, both
are at most `14 * 255` plus the header overhead, and a successful offset is at least
the header overhead, hence never `-1`. -/
theorem accumulators_exact (lengthOf : RTPExtensionType → Nat)
    (oneByteHeaderLength : Nat) (m : ExtensionMap) (hreach : Reachable lengthOf m)
    (hbyte : ∀ k, lengthOf k < 256)
    (hh : oneByteHeaderLength + 14 * 255 < 65536) :
    m.length ≤ 14 ∧
    payloadSum m ≤ 14 * 255 ∧
    totalLengthLoop m 0 = payloadSum m ∧
    GetTotalLengthInBytes oneByteHeaderLength m
      = (if payloadSum m = 0 then 0 else oneByteHeaderLength + payloadSum m) ∧
    GetTotalLengthInBytes oneByteHeaderLength m ≤ 14 * 255 + oneByteHeaderLength ∧
    (∀ k i, GetId m k = some i →
      GetLengthUntilBlockStartInBytes oneByteHeaderLength m k
        = ((oneByteHeaderLength
            + payloadSum (m.filter (fun e => decide (e.1 < i))) : Nat) : Int) ∧
      (oneByteHeaderLength : Int) ≤ GetLengthUntilBlockStartInBytes oneByteHeaderLength m k ∧
      GetLengthUntilBlockStartInBytes oneByteHeaderLength m k
        ≤ ((14 * 255 + oneByteHeaderLength : Nat) : Int) ∧
      GetLengthUntilBlockStartInBytes oneByteHeaderLength m k ≠ -1) := by
  have hinv := Invariant_of_ReachableBy lengthOf _ m hreach
  have hb : ∀ e ∈ m, e.2.length < 256 := by
    intro e he
    rw [(hinv.2 e he).2.2]
    exact hbyte _
  have hsum := payloadSum_le_of_Invariant lengthOf m hinv hb
  have htot := GetTotalLengthInBytes_exact oneByteHeaderLength m (by omega)
  refine ⟨length_le_of_Invariant lengthOf m hinv, hsum,
    by rw [totalLengthLoop_eq m 0 (by omega), Nat.zero_add], htot, ?_, ?_⟩
  · rw [htot]
    split <;> omega
  · intro k i hg
    have hoff := GetLengthUntilBlockStartInBytes_exact oneByteHeaderLength m k i hg
      (by omega)
    have hle := payloadSum_bindingsBefore_le m k
    have hfilter := bindingsBefore_eq_filter_lt m hinv.1 k i hg
    rw [hoff]
    refine ⟨by rw [hfilter], ?_, ?_, ?_⟩
    · omega
    · omega
    · omega

/-- Witness for C17: kinds 1, 2 with payload lengths 255, 255 at identifiers 1, 14 and
header overhead 4; the total is 4 + 510. -/
theorem accumulators_exact_witness :
    GetTotalLengthInBytes 4
      (Register (fun _ => 255) (Register (fun _ => 255) [] 1 1).2 2 14).2 = 514 ∧
    GetTotalLengthInBytes 4
      (Register (fun _ => 255) (Register (fun _ => 255) [] 1 1).2 2 14).2 ≤ 14 * 255 + 4 :=
  have h := accumulators_exact (fun _ => 255) 4
    (Register (fun _ => 255) (Register (fun _ => 255) [] 1 1).2 2 14).2
    (ReachableBy.register _ 2 14 (ReachableBy.register _ 1 1 ReachableBy.empty trivial)
      trivial)
    (fun _ => Nat.lt_succ_self 255) (by decide)
  ⟨by decide, h.2.2.2.2.1⟩

/-! ## Consistency of the two lookups -/

/-- C18: if `GetId(k)` returns `i` then `GetType(i)` returns `k`; if `GetType(i)`
returns `k` then `GetId(k)` succeeds with an identifier at most `i`, and with `i`
itself when no lower identifier is bound to kind `k`. -/
theorem lookups_consistent (m : ExtensionMap) (k : RTPExtensionType)
    (hasc : Ascending m) :
    (∀ i, GetId m k = some i → GetType m i = some k) ∧
    (∀ i, GetType m i = some k → ∃ i2, GetId m k = some i2 ∧ i2 ≤ i) ∧
    (∀ i, GetType m i = some k → (∀ j y, (j, y) ∈ m → j < i → y.type ≠ k) →
      GetId m k = some i) := by
  have hget : ∀ i, GetType m i = some k → ∃ x, (i, x) ∈ m ∧ x.type = k := by
    intro i h
    rw [GetType_eq] at h
    cases hb : bindingAt m i with
    | none => rw [hb] at h; cases h
    | some x =>
      rw [hb] at h
      exact ⟨x, (bindingAt_eq_some_iff m hasc i x).1 hb, Option.some.inj h⟩
  refine ⟨?_, ?_, ?_⟩
  · intro i hg
    obtain ⟨x, hx, hk⟩ := GetId_some_mem m k i hg
    rw [GetType_eq, (bindingAt_eq_some_iff m hasc i x).2 hx]
    simp [hk]
  · intro i h
    obtain ⟨x, hx, hk⟩ := hget i h
    cases hg : GetId m k with
    | none => exact absurd hk ((GetId_eq_none_iff m k).1 hg i x hx)
    | some i2 => exact ⟨i2, rfl, GetId_some_le m hasc k i2 hg i x hx hk⟩
  · intro i h hlow
    obtain ⟨x, hx, hk⟩ := hget i h
    refine GetId_of_least m hasc k i x hx hk ?_
    intro j y hy hyk
    by_contra hlt
    exact hlow j y hy (by omega) hyk

/-- Witness for C18: kinds 5, 9, 5 at identifiers 2, 4, 6; `GetType(6)` is 5 and
`GetId(5)` is 2. -/
theorem lookups_consistent_witness :
    Ascending [(2, { type := 5, length := 1 }), (4, { type := 9, length := 1 }),
      (6, { type := 5, length := 1 })] ∧
    GetType [(2, { type := 5, length := 1 }), (4, { type := 9, length := 1 }),
      (6, { type := 5, length := 1 })] 6 = some 5 ∧
    GetType [(2, { type := 5, length := 1 }), (4, { type := 9, length := 1 }),
      (6, { type := 5, length := 1 })] 2 = some 5 :=
  have h := lookups_consistent [(2, { type := 5, length := 1 }),
    (4, { type := 9, length := 1 }), (6, { type := 5, length := 1 })] 5 (by decide)
  ⟨by decide, by decide, h.1 2 (by decide)⟩

/-! ## The exact-key search after a successful scan -/

/-- C19, counterexample: kinds 7, `kRtpExtensionNone`, 8 are registered at identifiers
1, 2, 3 (all three calls succeed).  `Next(7)` returns `kRtpExtensionNone` although kind
7 is registered, at identifier 1, and identifiers 2 and 3 are bound above it. -/
theorem Next_sentinel_counterexample :
    (registerAll (fun _ => 1) [] [(7, 1), (kRtpExtensionNone, 2), (8, 3)]).1
      = [0, 0, 0] ∧
    GetId (registerAll (fun _ => 1) [] [(7, 1), (kRtpExtensionNone, 2), (8, 3)]).2 7
      = some 1 ∧
    GetType (registerAll (fun _ => 1) [] [(7, 1), (kRtpExtensionNone, 2), (8, 3)]).2 3
      = some 8 ∧
    Next (registerAll (fun _ => 1) [] [(7, 1), (kRtpExtensionNone, 2), (8, 3)]).2 7
      = kRtpExtensionNone := by
  decide

/-- C19, amended: whenever `GetId(k)` succeeds with `i`, the exact-key search
`find(i)` does not return `end()`, so the second failure branch of `Deregister` and of
`Next` is never taken; `Deregister(k)` fails exactly when `GetId(k)` fails; and
`Next(k)` returns `kRtpExtensionNone` exactly in three cases: the kind is not
registered, `GetId(k)` is the last entry, or the binding that follows `GetId(k)` (the
one at the smallest bound identifier above it) has kind `kRtpExtensionNone`.  In a
registry without a binding of kind `kRtpExtensionNone` only the first two remain. -/
theorem exact_key_search_succeeds (m : ExtensionMap) (k : RTPExtensionType)
    (hasc : Ascending m) :
    (∀ i, GetId m k = some i → mapFind m i ≠ []) ∧
    ((Deregister m k).1 = -1 ↔ GetId m k = none) ∧
    (Next m k = kRtpExtensionNone ↔
      GetId m k = none ∨
      (∃ i, GetId m k = some i ∧ ∀ j y, (j, y) ∈ m → j ≤ i) ∨
      (∃ i j y, GetId m k = some i ∧ (j, y) ∈ m ∧ i < j ∧
        (∀ j2 y2, (j2, y2) ∈ m → i < j2 → j ≤ j2) ∧ y.type = kRtpExtensionNone)) ∧
    ((∀ e ∈ m, e.2.type ≠ kRtpExtensionNone) →
      (Next m k = kRtpExtensionNone ↔
        GetId m k = none ∨ ∃ i, GetId m k = some i ∧ ∀ j y, (j, y) ∈ m → j ≤ i)) := by
  have hfwd : Next m k = kRtpExtensionNone →
      GetId m k = none ∨
      (∃ i, GetId m k = some i ∧ ∀ j y, (j, y) ∈ m → j ≤ i) ∨
      (∃ i j y, GetId m k = some i ∧ (j, y) ∈ m ∧ i < j ∧
        (∀ j2 y2, (j2, y2) ∈ m → i < j2 → j ≤ j2) ∧ y.type = kRtpExtensionNone) := by
    intro h
    cases hg : GetId m k with
    | none => exact Or.inl rfl
    | some i =>
      right
      rcases Next_cases m hasc k i hg with ⟨hmax, _⟩ | ⟨j, y, hy, hlt, hleast, hn⟩
      · exact Or.inl ⟨i, rfl, hmax⟩
      · exact Or.inr ⟨i, j, y, rfl, hy, hlt, hleast, by rw [← hn, h]⟩
  have hnone : GetId m k = none → Next m k = kRtpExtensionNone := by
    intro h
    unfold Next
    rw [h]
  have hlast : (∃ i, GetId m k = some i ∧ ∀ j y, (j, y) ∈ m → j ≤ i) →
      Next m k = kRtpExtensionNone := by
    rintro ⟨i, hg, hmax⟩
    exact Next_of_last m hasc k i hg hmax
  refine ⟨fun i hg => GetId_some_mapFind m k i hg, ?_, ⟨hfwd, ?_⟩, ?_⟩
  · cases hg : GetId m k with
    | none => rw [Deregister_of_GetId_none m k hg]; simp
    | some i => rw [Deregister_of_GetId_some m k i hg]; simp
  · rintro (h | h | ⟨i, j, y, hg, hy, hlt, hleast, hn⟩)
    · exact hnone h
    · exact hlast h
    · rw [Next_of_successor m hasc k i j y hg hy hlt hleast, hn]
  · intro hno
    constructor
    · intro h
      rcases hfwd h with h1 | h1 | ⟨i, j, y, _, hy, _, _, hn⟩
      · exact Or.inl h1
      · exact Or.inr h1
      · exact absurd hn (hno (j, y) hy)
    · rintro (h | h)
      · exact hnone h
      · exact hlast h

/-- Witness for C19 (amended): kinds 7, `kRtpExtensionNone`, 8 at identifiers 1, 2, 3;
`GetId(7)` is 1, the exact-key search for 1 succeeds, and `Next(7)` returns
`kRtpExtensionNone` because the binding that follows, at identifier 2, has that kind. -/
theorem exact_key_search_succeeds_witness :
    Ascending [(1, { type := 7, length := 1 }),
      (2, { type := kRtpExtensionNone, length := 1 }), (3, { type := 8, length := 1 })] ∧
    mapFind [(1, { type := 7, length := 1 }),
      (2, { type := kRtpExtensionNone, length := 1 }), (3, { type := 8, length := 1 })] 1
        ≠ [] ∧
    Next [(1, { type := 7, length := 1 }),
      (2, { type := kRtpExtensionNone, length := 1 }), (3, { type := 8, length := 1 })] 7
        = kRtpExtensionNone :=
  have h := exact_key_search_succeeds [(1, { type := 7, length := 1 }),
    (2, { type := kRtpExtensionNone, length := 1 }), (3, { type := 8, length := 1 })] 7
    (by decide)
  ⟨by decide, h.1 1 (by decide),
    h.2.2.1.2 (Or.inr (Or.inr ⟨1, 2, { type := kRtpExtensionNone, length := 1 },
      by decide, by decide, by decide,
      (by
        intro j2 y2 hy hlt
        simp only [List.mem_cons, Prod.mk.injEq, List.mem_singleton] at hy
        rcases hy with ⟨h1, _⟩ | ⟨h1, _⟩ | ⟨h1, _⟩ | h1
        · omega
        · omega
        · omega
        · cases h1),
      rfl⟩))⟩

end webrtc
